import Mathlib

set_option maxRecDepth 100000

/-!
# Verification of the Website-Scrapper content-extraction core

A shallow embedding of the repository's pure core:

* `app/utils/url.py`          — `is_valid_url`, `make_absolute_url`, `normalize_url`
* `app/scraper/section_parser.py` — `SectionParser` (landmark pass, heading pass,
  final fallback, field extractors, caps, meaningful-content filter)
* `app/scraper/static_scraper.py` — `StaticScraper.is_sufficient` and the shape of a
  successful static result
* `app/main.py`               — the `/scrape` dispatch (sufficiency gate, degraded
  result on classified failures)
* `app/scraper/interactions.py` — `InteractionHandler._handle_pagination`

Python strings are modelled as `List Char` (one entry per code point, matching
Python `len`/slicing).  `urllib.parse.urlparse` is embedded following CPython's
`Lib/urllib/parse.py` (`urlsplit` + params splitting): leading/trailing
C0-control-or-space stripping, tab/CR/LF removal, optional scheme (first char
ASCII-alphabetic, all chars in `scheme_chars`, lowercased), `//`-netloc up to the
first of `/?#` with the bracket-mismatch `ValueError`, fragment split at the first
`#`, query split at the first `?`, and `;params` removal from the path for schemes
in `uses_params`.  (CPython ≥3.11 additionally validates bracketed hosts as
IPv6/IPvFuture addresses; that stricter check only rejects more inputs and is not
modelled.)  Case-mapping helpers are ASCII, which covers every string the parser
itself introduces.

`urljoin` (used only through `make_absolute_url` for link/image/canonical
resolution) is kept as an explicit function parameter `uj` of the section-parser
model: no claim below depends on the value a resolved URL takes, only on counts
and caps, so every theorem quantifies over the resolver.
-/

namespace Scraper

/-! ## Python string primitives -/

/-- Python `str.strip()` whitespace (ASCII): space, `\t`, `\n`, `\r`, `\x0b`, `\x0c`. -/
def pyWs (c : Char) : Bool :=
  c = ' ' || c = '\t' || c = '\n' || c = '\r' || c = '\x0b' || c = '\x0c'

/-- Strip characters satisfying `p` from both ends of a list (Python `str.strip`). -/
def stripEnds (p : Char → Bool) (l : List Char) : List Char :=
  ((l.dropWhile p).reverse.dropWhile p).reverse

/-- Python `s.strip()` on a string. -/
def pyStrip (s : String) : String := String.mk (stripEnds pyWs s.toList)

/-- Python slicing `s[:n]` (by code point, as Python `len` counts). -/
def pyTake (s : String) (n : Nat) : String := String.mk (s.toList.take n)

/-- The effect of Python `str.lower()` on an ASCII character is core
`Char.toLower` (add 32 to an upper-case code point). -/
def toLowerA : Char → Char := Char.toLower

/-- The effect of Python `str.upper()` on an ASCII character is core
`Char.toUpper`. -/
def toUpperA : Char → Char := Char.toUpper

/-- Core loop of Python `str.title()` (ASCII): uppercase a letter that follows a
non-letter, lowercase a letter that follows a letter.  The argument records
whether the previous character was a letter. -/
def pyTitleGo : Bool → List Char → List Char
  | _, [] => []
  | prevAlpha, c :: rest =>
      (if c.isAlpha then (if prevAlpha then toLowerA c else toUpperA c) else c)
        :: pyTitleGo c.isAlpha rest

/-- Python `str.title()` on a string (ASCII model; tag names are ASCII). -/
def pyTitle (s : String) : String := String.mk (pyTitleGo false s.toList)

/-! ## `app/utils/url.py` — URL parsing (model of `urllib.parse`) -/

/-- CPython `_WHATWG_C0_CONTROL_OR_SPACE`: code points `0x00`–`0x20`. -/
def isC0OrSpace (c : Char) : Bool := c.toNat ≤ 0x20

/-- CPython `_UNSAFE_URL_BYTES_TO_REMOVE`: tab, CR, LF. -/
def unsafeByte (c : Char) : Bool := c = '\t' || c = '\r' || c = '\n'

/-- The `url.strip(...)` / `url.replace(b, "")` preprocessing at the top of
CPython `urlsplit`. -/
def cleanUrl (l : List Char) : List Char :=
  (stripEnds isC0OrSpace l).filter (fun c => !unsafeByte c)

/-- CPython `scheme_chars`: letters, digits, `+`, `-`, `.`. -/
def isSchemeChar (c : Char) : Bool :=
  c.isAlpha || c.isDigit || c = '+' || c = '-' || c = '.'

/-- The scheme-recognition step of `urlsplit`: if the text before the first `:`
is nonempty, starts with an ASCII letter and is all scheme characters, it is
removed and lowercased; otherwise the scheme is empty and the URL unchanged. -/
def parseSchemeSplit (l : List Char) : List Char × List Char :=
  let pre := l.takeWhile (fun c => c ≠ ':')
  if pre.length < l.length ∧ pre ≠ [] ∧ pre.head?.any Char.isAlpha ∧
      pre.all isSchemeChar then
    (pre.map toLowerA, l.drop (pre.length + 1))
  else ([], l)

/-- The three netloc delimiters of CPython `_splitnetloc`. -/
def urlDelim (c : Char) : Bool := c = '/' || c = '?' || c = '#'

/-- The netloc step of `urlsplit`: on `//`, the netloc runs to the first of
`/?#`; a `[` without `]` (or vice versa) raises `ValueError("Invalid IPv6 URL")`. -/
def netlocSplit : List Char → Except String (List Char × List Char)
  | '/' :: '/' :: rest =>
      let netloc := rest.takeWhile (fun c => !urlDelim c)
      if (netloc.contains '[' && !netloc.contains ']') ||
         (netloc.contains ']' && !netloc.contains '[') then
        .error "Invalid IPv6 URL"
      else
        .ok (netloc, rest.dropWhile (fun c => !urlDelim c))
  | l1 => .ok ([], l1)

/-- Python `url.split(c, 1)` when `c` occurs, `(url, "")` otherwise: the part
before the first `c` and the part after it. -/
def splitOnFirst (c : Char) (l : List Char) : List Char × List Char :=
  (l.takeWhile (fun x => x ≠ c), (l.dropWhile (fun x => x ≠ c)).drop 1)

/-- Result record of `urlsplit` (the `params` component of `urlparse` is dropped
by `normalize_url`, so it is not retained here; `urlparsePy` already removes it
from the path). -/
structure SplitResultPy where
  scheme : List Char
  netloc : List Char
  path : List Char
  query : List Char
  fragment : List Char
deriving Repr, DecidableEq

/-- CPython `urlsplit` (see module header for the exact modelling). -/
def urlsplitPy (l0 : List Char) : Except String SplitResultPy :=
  let l := cleanUrl l0
  let (scheme, l1) := parseSchemeSplit l
  match netlocSplit l1 with
  | .error e => .error e
  | .ok (netloc, l2) =>
      let (l3, fragment) := splitOnFirst '#' l2
      let (path, query) := splitOnFirst '?' l3
      .ok ⟨scheme, netloc, path, query, fragment⟩

/-- CPython `uses_params` (the schemes for which `urlparse` splits `;params`). -/
def usesParams : List (List Char) :=
  [[], "ftp".toList, "hdl".toList, "prospero".toList, "http".toList, "imap".toList,
   "https".toList, "shttp".toList, "rtsp".toList, "rtspu".toList, "sip".toList,
   "sips".toList, "mms".toList, "sftp".toList, "tel".toList]

/-- CPython `_splitparams`, path component only: split at the first `;` after the
last `/` (or the first `;` at all if the path has no `/`); no `;` after the last
`/` leaves the path unchanged. -/
def splitparamsPath (p : List Char) : List Char :=
  if p.contains '/' then
    let seg := (p.reverse.takeWhile (fun c => c ≠ '/')).reverse
    if seg.contains ';' then
      p.take (p.length - seg.length + (seg.takeWhile (fun c => c ≠ ';')).length)
    else p
  else p.takeWhile (fun c => c ≠ ';')

/-- CPython `urlparse`: `urlsplit` plus `;params` removal from the path for
schemes in `uses_params`. -/
def urlparsePy (l0 : List Char) : Except String SplitResultPy :=
  (urlsplitPy l0).map fun r =>
    if usesParams.contains r.scheme ∧ r.path.contains ';' then
      { r with path := splitparamsPath r.path }
    else r

/-- `url.py` `is_valid_url`: `urlparse` under `try`/`except` (any parse error
gives `False`), then `scheme in ('http', 'https')` and truthy `netloc`. -/
def is_valid_url (u : String) : Bool :=
  match urlparsePy u.toList with
  | .error _ => false
  | .ok r =>
      (r.scheme == "http".toList || r.scheme == "https".toList) && !r.netloc.isEmpty

/-- The f-string reconstruction inside `normalize_url`:
`f"{scheme}://{netloc}{path}"` plus `?query` when the query is truthy. -/
def reconstructUrl (r : SplitResultPy) : List Char :=
  r.scheme ++ (':' :: '/' :: '/' :: r.netloc) ++ r.path ++
    (if r.query.isEmpty then [] else '?' :: r.query)

/-- `url.py` `normalize_url`: parse (errors propagate — there is no `try` here)
and reconstruct, dropping fragment (and, via `urlparse`, params). -/
def normalize_url (u : String) : Except String String :=
  (urlparsePy u.toList).map fun r => String.mk (reconstructUrl r)

/-- `url.py` `make_absolute_url`, with `urljoin` abstracted as the parameter
`uj` (see module header): empty relative URL gives `""`, otherwise the join. -/
def make_absolute_url (uj : String → String → String) (base rel : String) : String :=
  if rel = "" then "" else uj base rel

/-! ## Parse trees (the BeautifulSoup operations the parser uses)

A document is a `Node`; `BeautifulSoup`'s search operations used by
`section_parser.py` are embedded directly: `find_all`/`find` walk the strict
descendants in document (pre-)order and yield only element nodes,
`find_next_siblings()` yields only element siblings, `get_text(separator,
strip=True)` joins the stripped, nonempty string descendants, and `str(tag)`
serialises the subtree.  (BeautifulSoup's entity escaping and void-element
forms are not reproduced in `nodeStr`; no claim depends on the rendered
characters, only on lengths and on equalities between outputs of this model.) -/

mutual
inductive Node where
  | elem (tag : String) (attrs : List (String × String)) (children : NodeList)
  | text (s : String)
inductive NodeList where
  | nil
  | cons (head : Node) (tail : NodeList)
end

def NodeList.toList : NodeList → List Node
  | .nil => []
  | .cons h t => h :: t.toList

def NodeList.ofList : List Node → NodeList
  | [] => .nil
  | h :: t => .cons h (NodeList.ofList t)

def tagOf : Node → String
  | .elem t _ _ => t
  | .text _ => ""

def childrenOf : Node → NodeList
  | .elem _ _ cs => cs
  | .text _ => .nil

def attrsOf : Node → List (String × String)
  | .elem _ a _ => a
  | .text _ => []

def hasAttr (n : Node) (name : String) : Bool :=
  (attrsOf n).any (fun p => p.1 == name)

def getAttrD (n : Node) (name dflt : String) : String :=
  match (attrsOf n).find? (fun p => p.1 == name) with
  | some p => p.2
  | none => dflt

def getAttr (n : Node) (name : String) : String := getAttrD n name ""

/-- All element nodes occurring in a forest, in document (pre-)order. -/
def descendantsList : NodeList → List Node
  | .nil => []
  | .cons (.text _) rest => descendantsList rest
  | .cons (.elem t a cs) rest =>
      .elem t a cs :: (descendantsList cs ++ descendantsList rest)

/-- The strict element descendants of a node (`find_all` search space). -/
def strictDescendants (n : Node) : List Node := descendantsList (childrenOf n)

/-- `n.find_all([t1, t2, ...])`. -/
def findAllTags (tags : List String) (n : Node) : List Node :=
  (strictDescendants n).filter (fun d => tags.contains (tagOf d))

/-- `n.find([t1, t2, ...])`. -/
def findFirstTag (tags : List String) (n : Node) : Option Node :=
  (strictDescendants n).find? (fun d => tags.contains (tagOf d))

/-- `n.find_all(tag, attrName=True)` (attribute present). -/
def findAllTagAttr (tag attrName : String) (n : Node) : List Node :=
  (strictDescendants n).filter (fun d => tagOf d == tag && hasAttr d attrName)

/-- `n.find(tag, attrs={attrName: attrVal})`. -/
def findFirstTagAttrVal (tag attrName attrVal : String) (n : Node) : Option Node :=
  (strictDescendants n).find? (fun d => tagOf d == tag && getAttr d attrName == attrVal)

/-- All string (NavigableString) descendants of a forest, in document order. -/
def textsList : NodeList → List String
  | .nil => []
  | .cons (.text s) rest => s :: textsList rest
  | .cons (.elem _ _ cs) rest => textsList cs ++ textsList rest

def textsOf : Node → List String
  | .text s => [s]
  | .elem _ _ cs => textsList cs

/-- `n.get_text(separator=sep, strip=True)`: strip each string descendant, drop
the ones that become empty, join with `sep`.  `get_text(strip=True)` is
`getTextSep ""`. -/
def getTextSep (sep : String) (n : Node) : String :=
  String.intercalate sep (((textsOf n).map pyStrip).filter (fun s => !(s == "")))

def attrsStr (attrs : List (String × String)) : String :=
  String.join (attrs.map (fun p => " " ++ p.1 ++ "=\x22" ++ p.2 ++ "\x22"))

/-- `str(tag)` for a forest of nodes. -/
def nodesStr : NodeList → String
  | .nil => ""
  | .cons (.text s) rest => s ++ nodesStr rest
  | .cons (.elem t a cs) rest =>
      "<" ++ t ++ attrsStr a ++ ">" ++ nodesStr cs ++ "</" ++ t ++ ">" ++ nodesStr rest

/-- `str(tag)` for one node. -/
def nodeStr (n : Node) : String :=
  match n with
  | .text s => s
  | .elem t a cs => "<" ++ t ++ attrsStr a ++ ">" ++ nodesStr cs ++ "</" ++ t ++ ">"

/-! ## `app/scraper/section_parser.py` — the Content Model Builder -/

structure LinkItem where
  text : String
  url : String
deriving Repr, DecidableEq

structure ImageItem where
  src : String
  alt : String
deriving Repr, DecidableEq

structure TableItem where
  headers : List String
  rows : List (List String)
deriving Repr, DecidableEq

structure Section where
  id : String
  type : String
  heading : String
  text : String
  links : List LinkItem
  images : List ImageItem
  lists : List (List String)
  tables : List TableItem
  rawHtml : String
deriving Repr, DecidableEq

def MAX_HTML_LENGTH : Nat := 500

/-- `SectionParser._extract_text`: per-element `get_text(separator=' ',
strip=True)`, keep nonempty, join with single spaces, slice to 2000. -/
def extract_text (elements : List Node) : String :=
  pyTake (String.intercalate " "
    ((elements.map (getTextSep " ")).filter (fun s => !(s == "")))) 2000

/-- The link enumeration of `SectionParser._extract_links` before the `[:20]`
slice: every descendant `<a href=...>` with nonempty stripped text and nonempty
resolved URL, in document order. -/
def linksUncapped (uj : String → String → String) (base : String)
    (elements : List Node) : List LinkItem :=
  (elements.map (fun el =>
    (findAllTagAttr "a" "href" el).filterMap (fun a =>
      let t := getTextSep "" a
      let h := make_absolute_url uj base (getAttr a "href")
      if t != "" && h != "" then some ⟨t, h⟩ else none))).flatten

/-- `SectionParser._extract_links`. -/
def extract_links (uj : String → String → String) (base : String)
    (elements : List Node) : List LinkItem :=
  (linksUncapped uj base elements).take 20

/-- The image enumeration of `SectionParser._extract_images` before `[:10]`. -/
def imagesUncapped (uj : String → String → String) (base : String)
    (elements : List Node) : List ImageItem :=
  (elements.map (fun el =>
    (findAllTagAttr "img" "src" el).map (fun img =>
      ⟨make_absolute_url uj base (getAttr img "src"), getAttrD img "alt" ""⟩))).flatten

/-- `SectionParser._extract_images`. -/
def extract_images (uj : String → String → String) (base : String)
    (elements : List Node) : List ImageItem :=
  (imagesUncapped uj base elements).take 10

/-- `ul.find_all('li', recursive=False)`: direct element children only. -/
def directChildrenTag (tag : String) (n : Node) : List Node :=
  (childrenOf n).toList.filter (fun c => tagOf c == tag)

/-- The list enumeration of `SectionParser._extract_lists` before `[:5]`: every
`ul`/`ol` with at least one direct `li` child, its direct items sliced to 10. -/
def listsUncapped (elements : List Node) : List (List String) :=
  (elements.map (fun el =>
    (findAllTags ["ul", "ol"] el).filterMap (fun ul =>
      let items := (directChildrenTag "li" ul).map (getTextSep "")
      if items.isEmpty then none else some (items.take 10)))).flatten

/-- `SectionParser._extract_lists`. -/
def extract_lists (elements : List Node) : List (List String) :=
  (listsUncapped elements).take 5

/-- The table enumeration of `SectionParser._extract_tables` before `[:3]`:
headers from all `th` descendants, rows from `tr`s with at least one `td`
(sliced to 10), tables with neither headers nor rows dropped. -/
def tablesUncapped (elements : List Node) : List TableItem :=
  (elements.map (fun el =>
    (findAllTags ["table"] el).filterMap (fun table =>
      let headers := (findAllTags ["th"] table).map (getTextSep "")
      let rows := (findAllTags ["tr"] table).filterMap (fun tr =>
        let cells := (findAllTags ["td"] tr).map (getTextSep "")
        if cells.isEmpty then none else some cells)
      if headers.isEmpty && rows.isEmpty then none
      else some ⟨headers, rows.take 10⟩))).flatten

/-- `SectionParser._extract_tables`. -/
def extract_tables (elements : List Node) : List TableItem :=
  (tablesUncapped elements).take 3

/-- `SectionParser._truncate_html`. -/
def truncate_html (html : String) : String :=
  if html.length ≤ MAX_HTML_LENGTH then html
  else pyTake html MAX_HTML_LENGTH ++ "..."

/-- `SectionParser._has_meaningful_content`. -/
def has_meaningful_content (s : Section) : Bool :=
  s.text.length > 20 || !s.links.isEmpty || !s.images.isEmpty ||
    !s.lists.isEmpty || !s.tables.isEmpty

/-- `SectionParser._determine_section_type` (`tag_map.get(name, 'content')`). -/
def tagTypeMap (t : String) : String :=
  if t == "header" then "header"
  else if t == "nav" then "navigation"
  else if t == "main" then "content"
  else if t == "article" then "article"
  else if t == "aside" then "sidebar"
  else if t == "footer" then "footer"
  else "content"

/-- `SectionParser._parse_section` (landmark sections). -/
def parse_section (uj : String → String → String) (base : String)
    (element : Node) (section_id : String) : Section :=
  let heading := match findFirstTag ["h1", "h2", "h3", "h4"] element with
    | some h => getTextSep "" h
    | none => pyTitle (tagOf element)
  { id := section_id
    type := tagTypeMap (tagOf element)
    heading := heading
    text := extract_text [element]
    links := extract_links uj base [element]
    images := extract_images uj base [element]
    lists := extract_lists [element]
    tables := extract_tables [element]
    rawHtml := truncate_html (nodeStr element) }

def headingTags : List String := ["h1", "h2", "h3"]

/-- The `for sibling in heading.find_next_siblings()` loop of
`_parse_by_headings`: element siblings (sibling search yields no strings) up to,
not including, the next h1/h2/h3. -/
def siblingContent : NodeList → List Node
  | .nil => []
  | .cons (.text _) rest => siblingContent rest
  | .cons (.elem t a cs) rest =>
      if headingTags.contains t then []
      else .elem t a cs :: siblingContent rest

/-- Every `(heading, scope)` pair of the heading pass, in document (pre-)order:
one pair per h1/h2/h3 descendant, scoped to its following element siblings up to
the next h1/h2/h3 — the iteration space of `_parse_by_headings`. -/
def headingGroups : NodeList → List (Node × List Node)
  | .nil => []
  | .cons (.text _) rest => headingGroups rest
  | .cons (.elem t a cs) rest =>
      (if headingTags.contains t then [(Node.elem t a cs, siblingContent rest)] else [])
        ++ headingGroups cs ++ headingGroups rest

/-- The section dict built for heading number `idx` in `_parse_by_headings`. -/
def headingSection (uj : String → String → String) (base : String)
    (idx : Nat) (h : Node) (content : List Node) : Section :=
  { id := "section-" ++ toString idx
    type := "content"
    heading := getTextSep "" h
    text := extract_text content
    links := extract_links uj base content
    images := extract_images uj base content
    lists := extract_lists content
    tables := extract_tables content
    rawHtml := truncate_html (nodeStr h ++ String.join ((content.take 3).map nodeStr)) }

/-- `SectionParser._parse_by_headings`. -/
def parse_by_headings (uj : String → String → String) (base : String)
    (soup : Node) : List Section :=
  ((headingGroups (childrenOf soup)).enum.map
    (fun p => headingSection uj base p.1 p.2.1 p.2.2)).filter has_meaningful_content

def landmarkTags : List String :=
  ["header", "nav", "main", "article", "section", "aside", "footer"]

/-- The landmark pass of `parse_sections`: one section per landmark element in
document order (id `f"{name}-{idx}"`), retained if meaningful.  (The guard `if
landmarks:` in the source is the identity on an empty landmark list.) -/
def landmarkSections (uj : String → String → String) (base : String)
    (soup : Node) : List Section :=
  ((findAllTags landmarkTags soup).enum.map
    (fun p => parse_section uj base p.2 (tagOf p.2 ++ "-" ++ toString p.1))).filter
    has_meaningful_content

/-- `SectionParser._fallback_section`. -/
def fallback_section (uj : String → String → String) (base : String)
    (soup : Node) : List Section :=
  let body := (findFirstTag ["body"] soup).getD soup
  [{ id := "section-0"
     type := "content"
     heading := "Main Content"
     text := extract_text [body]
     links := extract_links uj base [body]
     images := extract_images uj base [body]
     lists := extract_lists [body]
     tables := extract_tables [body]
     rawHtml := truncate_html (nodeStr body) }]

/-- `SectionParser.parse_sections`: landmark pass; heading pass whenever fewer
than 2 landmark sections were retained (replacing, not merging); final fallback
when the surviving list is empty. -/
def parse_sections (uj : String → String → String) (base : String)
    (soup : Node) : List Section :=
  let sections := landmarkSections uj base soup
  let sections := if sections.length < 2 then parse_by_headings uj base soup else sections
  if sections.isEmpty then fallback_section uj base soup else sections

/-- `SectionParser.extract_meta`. -/
def extract_meta (uj : String → String → String) (base : String)
    (soup : Node) : String × String × String × String :=
  let title := match findFirstTag ["title"] soup with
    | some t => getTextSep "" t
    | none => ""
  let descTag := match findFirstTagAttrVal "meta" "name" "description" soup with
    | some d => some d
    | none => findFirstTagAttrVal "meta" "property" "og:description" soup
  let description := match descTag with
    | some d => getAttr d "content"
    | none => ""
  let language := match findFirstTag ["html"] soup with
    | some h => getAttr h "lang"
    | none => ""
  let canonical := match findFirstTagAttrVal "link" "rel" "canonical" soup with
    | some l => if getAttr l "href" != "" then make_absolute_url uj base (getAttr l "href") else ""
    | none => ""
  (title, description, language, canonical)

/-! ## `app/scraper/static_scraper.py` and the result model -/

structure MetaInfo where
  title : String
  description : String
  language : String
  canonical : String
deriving Repr, DecidableEq

structure ClickItem where
  type : String
  selector : String
  text : String
deriving Repr, DecidableEq

structure PageEntry where
  pageNumber : Nat
  url : String
deriving Repr, DecidableEq

structure InteractionLog where
  clicks : List ClickItem
  scrolls : Nat
  pages : List PageEntry
deriving Repr, DecidableEq

/-- The result dict of §3 of the spec (`ContentModel`); `scrapedAt` is `""`
until the dispatch stamps it, mirroring the key's absence before
`result['scrapedAt'] = ...` in `main.py`. -/
structure ScrapeResult where
  url : String
  scrapedAt : String
  meta : MetaInfo
  sections : List Section
  interactions : InteractionLog
  errors : List String
deriving Repr, DecidableEq

def MIN_TEXT_LENGTH : Nat := 200

def MIN_SECTIONS : Nat := 1

/-- `sum(len(section.get('text', '')) for section in sections)`. -/
def totalTextLength (sections : List Section) : Nat :=
  (sections.map (fun s => s.text.length)).sum

/-- `StaticScraper.is_sufficient`, with its three early-return checks. -/
def is_sufficient (r : ScrapeResult) : Bool :=
  let sections := r.sections
  if sections.length < MIN_SECTIONS then false
  else if totalTextLength sections < MIN_TEXT_LENGTH then false
  else if !(sections.any (fun s =>
      s.text != "" || !s.links.isEmpty || !s.images.isEmpty)) then false
  else true

def emptyInteractions : InteractionLog := ⟨[], 0, []⟩

/-- The success `result` dict of `StaticScraper.scrape`: `soup` is the fetched,
noise-stripped tree (HTTP and noise removal abstracted away), `normalizedUrl`
the output of `normalize_url`, which is also the parser's base URL. -/
def staticResult (uj : String → String → String) (normalizedUrl : String)
    (soup : Node) : ScrapeResult :=
  let m := extract_meta uj normalizedUrl soup
  { url := normalizedUrl
    scrapedAt := ""
    meta := ⟨m.1, m.2.1, m.2.2.1, m.2.2.2⟩
    sections := parse_sections uj normalizedUrl soup
    interactions := emptyInteractions
    errors := [] }

/-! ## `app/main.py` — the dispatch policy -/

inductive ErrKind where
  | network
  | parsing
  | render
deriving Repr, DecidableEq

/-- An exception reaching `main.scrape`'s handlers: a `ScraperError` subclass
(`NetworkError`, `ParsingError`, `JSRenderError` — the classified kinds) or any
other exception. -/
inductive PyExc where
  | scraper (kind : ErrKind) (msg : String)
  | other (msg : String)
deriving Repr, DecidableEq

def emptyMeta : MetaInfo := ⟨"", "", "", ""⟩

/-- The degraded 200-response body of `main.scrape`'s `except ScraperError`
branch (Python's literal empty `meta`/`interactions` dicts are the zeroed
records here). -/
def degradedResult (requestUrl now msg : String) : ScrapeResult :=
  { url := requestUrl
    scrapedAt := now
    meta := emptyMeta
    sections := []
    interactions := emptyInteractions
    errors := [msg] }

/-- `main.scrape`: run the static fetcher; if its result `is_sufficient`, stamp
and return it; otherwise run the JS fetcher and stamp and return its result.
Either fetcher raising a `ScraperError` yields the degraded result as a
successful response; any other exception propagates (`Except.error`, the
HTTP-500 path).  The fetchers are abstracted as an outcome and a thunk — the
thunk makes "the rendered path is not consulted" statable.  `now` stands for
`datetime.utcnow().isoformat()`. -/
def scrapeDispatch (requestUrl now : String)
    (staticFetch : Except PyExc ScrapeResult)
    (jsFetch : Unit → Except PyExc ScrapeResult) : Except String ScrapeResult :=
  match staticFetch with
  | .error (.scraper _ m) => .ok (degradedResult requestUrl now m)
  | .error (.other m) => .error m
  | .ok r =>
    if is_sufficient r then .ok { r with scrapedAt := now }
    else
      match jsFetch () with
      | .error (.scraper _ m) => .ok (degradedResult requestUrl now m)
      | .error (.other m) => .error m
      | .ok r2 => .ok { r2 with scrapedAt := now }

/-! ## `app/scraper/interactions.py` — the pagination phase

The browser is abstracted as `env : Nat → Option String`: for hop number `k`
(0-based), `env k` is the page URL reached after the first "next" selector with
a visible match is clicked (`some u`), or `none` when no selector produces a
successful click on that hop — per-selector failures are swallowed and mean
"try the next selector", so only the first successful click's landing URL is
observable per hop. -/

/-- The `while current_page < max_depth` loop of
`InteractionHandler._handle_pagination`: a hop that lands on a URL already in
`visited` (or produces no click) ends the phase; a fresh URL is recorded as
`{pageNumber: current_page, url}` after `current_page += 1`. -/
def paginateLoop (env : Nat → Option String) (maxDepth : Nat)
    (visited : List String) (currentPage hop : Nat) : List PageEntry :=
  if currentPage < maxDepth then
    match env hop with
    | none => []
    | some u =>
      if visited.contains u then []
      else ⟨currentPage + 1, u⟩ ::
        paginateLoop env maxDepth (u :: visited) (currentPage + 1) (hop + 1)
  else []
termination_by maxDepth - currentPage

/-- `InteractionHandler._handle_pagination`: `current_page = 1`, visited seeded
with the page's starting URL. -/
def handle_pagination (env : Nat → Option String) (startUrl : String)
    (maxDepth : Nat) : List PageEntry :=
  paginateLoop env maxDepth [startUrl] 1 0

/-! ## Concrete inputs used by the counterexamples and witnesses -/

/-- A concrete stand-in for `urljoin` (the identity on the relative part). -/
def ujId : String → String → String := fun _ r => r

/-- A 220-character paragraph body. -/
def p220 : String := String.mk (List.replicate 220 'a')

/-- The spec's end-to-end example page:
`<h1>A</h1><p>(220 chars)</p><h2>B</h2><p>text</p>`. -/
def c1soup : Node :=
  .elem "[document]" [] (.ofList [
    .elem "html" [] (.ofList [
      .elem "body" [] (.ofList [
        .elem "h1" [] (.ofList [.text "A"]),
        .elem "p" [] (.ofList [.text p220]),
        .elem "h2" [] (.ofList [.text "B"]),
        .elem "p" [] (.ofList [.text "text"])])])])

/-- A page whose only landmark (`nav`, 25 characters of text, meaningful) is
retained by the landmark pass, with no h1–h3 anywhere. -/
def c5soup : Node :=
  .elem "[document]" [] (.ofList [
    .elem "html" [] (.ofList [
      .elem "body" [] (.ofList [
        .elem "nav" [] (.ofList [.text "twenty-five characters!!!"])])])])

/-- A 501-character string. -/
def s501 : String := String.mk (List.replicate 501 'a')


/-- Sections with `n` characters of text and nothing else, for the sufficiency
examples. -/
def plainTextSection (n : Nat) : Section :=
  ⟨"s", "content", "heading", String.mk (List.replicate n 'x'), [], [], [], [], ""⟩

/-- A successful static result with the given per-section text lengths and no
links or images. -/
def plainTextResult (ns : List Nat) : ScrapeResult :=
  ⟨"http://e.com/", "", ⟨"", "", "", ""⟩, ns.map plainTextSection,
    emptyInteractions, []⟩

/-- A default `Section` (only used as a `getD` fallback in witnesses). -/
def dfltSection : Section := ⟨"", "", "", "", [], [], [], [], ""⟩

/-- The (sole, fallback) section parsed from `c5soup`. -/
def w7sec : Section := (parse_sections ujId "http://e.com/" c5soup).getD 0 dfltSection

/-- A hop environment describing a 3-page series (two fresh next-URLs, then no
next control). -/
def env3 : Nat → Option String
  | 0 => some "http://e.com/p2"
  | 1 => some "http://e.com/p3"
  | _ => none

/-- A hop environment whose "next" control always reloads the same URL. -/
def envSame : Nat → Option String := fun _ => some "http://e.com/p1"

/-- An insufficient static outcome (no sections at all). -/
def emptyOkResult : ScrapeResult :=
  ⟨"http://e.com/", "", ⟨"", "", "", ""⟩, [], emptyInteractions, []⟩

/-- A rendered path failing with `JSRenderError`. -/
def jsFailRender : Unit → Except PyExc ScrapeResult :=
  fun _ => .error (.scraper .render "Failed to render page: boom")

/-- The per-section cap contract of §3 of the spec: text ≤ 2000 characters, at
most 20 links, 10 images, 5 lists of at most 10 items, 3 tables of at most 10
rows. -/
def SectionBounded (s : Section) : Prop :=
  s.text.length ≤ 2000 ∧ s.links.length ≤ 20 ∧ s.images.length ≤ 10 ∧
    s.lists.length ≤ 5 ∧ (∀ l ∈ s.lists, l.length ≤ 10) ∧
    s.tables.length ≤ 3 ∧ (∀ t ∈ s.tables, t.rows.length ≤ 10)

structure GoodParts (r : SplitResultPy) : Prop where
  scheme_lower : r.scheme.map toLowerA = r.scheme
  scheme_chars : r.scheme.all isSchemeChar = true
  scheme_head : r.scheme = [] ∨ r.scheme.head?.any Char.isAlpha = true
  netloc_chars : r.netloc.all (fun c => !urlDelim c) = true
  netloc_brackets : r.netloc.contains '[' = r.netloc.contains ']'
  path_head : r.netloc ≠ [] → (r.path = [] ∨ ∃ t, r.path = '/' :: t)
  path_chars : r.path.all (fun c => decide (c ≠ '#') && decide (c ≠ '?')) = true
  query_chars : r.query.all (fun c => decide (c ≠ '#')) = true
  params_stable : usesParams.contains r.scheme = true → r.path.contains ';' = true →
    splitparamsPath r.path = r.path

def c3r : SplitResultPy :=
  (urlparsePy "http://ex.com/a#f".toList).toOption.getD ⟨[], [], [], [], []⟩

def c3r2 : SplitResultPy :=
  (urlparsePy "http://ex.com/a".toList).toOption.getD ⟨[], [], [], [], []⟩

def c9r : SplitResultPy :=
  (urlparsePy "HTTPS://Ex.com/p/x?q=1#frag".toList).toOption.getD ⟨[], [], [], [], []⟩

def c9v : String :=
  (normalize_url "HTTPS://Ex.com/p/x?q=1#frag").toOption.getD ""

/-! ## Shared helper lemmas -/

theorem pyTake_length_le (s : String) (n : Nat) : (pyTake s n).length ≤ n := by
  have h : (pyTake s n).length = (s.toList.take n).length := rfl
  rw [h]
  exact List.length_take_le n s.toList

theorem extract_text_length_le (els : List Node) : (extract_text els).length ≤ 2000 :=
  pyTake_length_le _ _

theorem truncate_html_length_le (s : String) : (truncate_html s).length ≤ 503 := by
  rw [truncate_html]
  simp only [MAX_HTML_LENGTH]
  split
  · omega
  · have h1 := pyTake_length_le s 500
    have h2 : (pyTake s 500 ++ "...").length = (pyTake s 500).length + 3 := by
      rw [String.length_append]
      rfl
    omega

/-- The empty list is never a `parse_sections` output: the final fallback is a
singleton. -/
theorem parse_sections_ne_nil (uj : String → String → String) (base : String)
    (soup : Node) : parse_sections uj base soup ≠ [] := by
  simp only [parse_sections]
  split
  · split
    · simp [fallback_section]
    · rename_i h
      simpa [List.isEmpty_iff] using h
  · split
    · simp [fallback_section]
    · rename_i h
      simpa [List.isEmpty_iff] using h

/-- `is_sufficient` returns `false` exactly on the three documented conditions. -/
theorem is_sufficient_false_iff (r : ScrapeResult) :
    is_sufficient r = false ↔
      (r.sections.length < 1 ∨ totalTextLength r.sections < 200 ∨
        ∀ s ∈ r.sections, s.text = "" ∧ s.links = [] ∧ s.images = []) := by
  unfold is_sufficient
  simp only [MIN_SECTIONS, MIN_TEXT_LENGTH]
  split
  · rename_i h
    simp [h]
  · rename_i h
    split
    · rename_i h2
      simp [h, h2]
    · rename_i h2
      split
      · rename_i h3
        constructor
        · intro _
          refine Or.inr (Or.inr (fun s hs => ?_))
          rw [Bool.not_eq_true', List.any_eq_false] at h3
          have hx := h3 s hs
          simp only [Bool.or_eq_true, not_or, Bool.not_eq_true,
            bne_eq_false_iff_eq, Bool.not_eq_false', List.isEmpty_iff] at hx
          exact ⟨hx.1.1, hx.1.2, hx.2⟩
        · intro _
          rfl
      · rename_i h3
        rw [Bool.not_eq_true', Bool.not_eq_false] at h3
        rw [List.any_eq_true] at h3
        obtain ⟨s, hs, hp⟩ := h3
        constructor
        · intro hfalse
          cases hfalse
        · intro hor
          rcases hor with h' | h' | h'
          · exact absurd h' h
          · exact absurd h' h2
          · obtain ⟨ht, hl, hi⟩ := h' s hs
            rw [ht, hl, hi] at hp
            simp at hp


/-! ### Extractor cap lemmas -/

theorem extract_links_length_le (uj : String → String → String) (base : String)
    (els : List Node) : (extract_links uj base els).length ≤ 20 :=
  List.length_take_le _ _

theorem extract_images_length_le (uj : String → String → String) (base : String)
    (els : List Node) : (extract_images uj base els).length ≤ 10 :=
  List.length_take_le _ _

theorem extract_lists_length_le (els : List Node) :
    (extract_lists els).length ≤ 5 :=
  List.length_take_le _ _

theorem extract_tables_length_le (els : List Node) :
    (extract_tables els).length ≤ 3 :=
  List.length_take_le _ _

theorem mem_extract_lists_length_le (els : List Node) (l : List String)
    (h : l ∈ extract_lists els) : l.length ≤ 10 := by
  have h1 : l ∈ listsUncapped els := List.mem_of_mem_take h
  simp only [listsUncapped, List.mem_flatten] at h1
  obtain ⟨L, hL, hl⟩ := h1
  obtain ⟨el, -, rfl⟩ := List.mem_map.mp hL
  obtain ⟨ul, -, heq⟩ := List.mem_filterMap.mp hl
  split at heq
  · cases heq
  · cases heq
    exact List.length_take_le _ _

theorem mem_extract_tables_rows_le (els : List Node) (t : TableItem)
    (h : t ∈ extract_tables els) : t.rows.length ≤ 10 := by
  have h1 : t ∈ tablesUncapped els := List.mem_of_mem_take h
  simp only [tablesUncapped, List.mem_flatten] at h1
  obtain ⟨L, hL, hl⟩ := h1
  obtain ⟨el, -, rfl⟩ := List.mem_map.mp hL
  obtain ⟨table, -, heq⟩ := List.mem_filterMap.mp hl
  split at heq
  · cases heq
  · cases heq
    exact List.length_take_le _ _

theorem headingSection_bounded (uj : String → String → String) (base : String)
    (idx : Nat) (h : Node) (content : List Node) :
    SectionBounded (headingSection uj base idx h content) :=
  ⟨extract_text_length_le _, extract_links_length_le _ _ _,
   extract_images_length_le _ _ _, extract_lists_length_le _,
   fun l hl => mem_extract_lists_length_le _ l hl,
   extract_tables_length_le _,
   fun t ht => mem_extract_tables_rows_le _ t ht⟩

theorem parse_section_bounded (uj : String → String → String) (base : String)
    (element : Node) (sid : String) :
    SectionBounded (parse_section uj base element sid) :=
  ⟨extract_text_length_le _, extract_links_length_le _ _ _,
   extract_images_length_le _ _ _, extract_lists_length_le _,
   fun l hl => mem_extract_lists_length_le _ l hl,
   extract_tables_length_le _,
   fun t ht => mem_extract_tables_rows_le _ t ht⟩

theorem fallback_section_bounded (uj : String → String → String) (base : String)
    (soup : Node) (sec : Section) (h : sec ∈ fallback_section uj base soup) :
    SectionBounded sec := by
  simp only [fallback_section, List.mem_singleton] at h
  subst h
  exact ⟨extract_text_length_le _, extract_links_length_le _ _ _,
    extract_images_length_le _ _ _, extract_lists_length_le _,
    fun l hl => mem_extract_lists_length_le _ l hl,
    extract_tables_length_le _,
    fun t ht => mem_extract_tables_rows_le _ t ht⟩

/-! ### Pagination loop invariant -/

theorem paginateLoop_spec (env : Nat → Option String) (d : Nat) :
    ∀ (n : Nat) (visited : List String) (c hop : Nat), d - c ≤ n →
      (paginateLoop env d visited c hop).length ≤ d - c ∧
      (paginateLoop env d visited c hop).map PageEntry.pageNumber =
        List.range' (c + 1) (paginateLoop env d visited c hop).length 1 ∧
      (∀ u ∈ (paginateLoop env d visited c hop).map PageEntry.url, u ∉ visited) ∧
      ((paginateLoop env d visited c hop).map PageEntry.url).Nodup := by
  intro n
  induction n with
  | zero =>
    intro visited c hop h
    rw [paginateLoop, if_neg (by omega)]
    simp
  | succ n ih =>
    intro visited c hop h
    rw [paginateLoop]
    split
    · rename_i hc
      cases henv : env hop with
      | none => simp
      | some u =>
        simp only
        split
        · simp
        · rename_i hu
          obtain ⟨ih1, ih2, ih3, ih4⟩ := ih (u :: visited) (c + 1) (hop + 1) (by omega)
          have hunv : u ∉ visited := by
            intro hmem
            exact hu (List.elem_eq_true_of_mem hmem)
          refine ⟨?_, ?_, ?_, ?_⟩
          · simp only [List.length_cons]
            omega
          · simp only [List.map_cons, List.length_cons, List.range'_succ, ih2]
          · intro x hx
            simp only [List.map_cons, List.mem_cons] at hx
            rcases hx with rfl | hx
            · exact hunv
            · intro hmem
              exact ih3 x hx (List.mem_cons_of_mem _ hmem)
          · simp only [List.map_cons, List.nodup_cons]
            refine ⟨?_, ih4⟩
            intro hmem
            exact ih3 u hmem (List.mem_cons_self _ _)
    · simp

/-! ### URL model lemmas -/

/-! ### List scanning helpers -/

theorem takeWhile_all_eq {p : Char → Bool} : ∀ {l : List Char},
    (∀ x ∈ l, p x = true) → l.takeWhile p = l
  | [], _ => rfl
  | c :: t, h => by
    rw [List.takeWhile_cons_of_pos (h c (List.mem_cons_self c t))]
    rw [takeWhile_all_eq (fun x hx => h x (List.mem_cons_of_mem c hx))]

theorem dropWhile_all_eq_nil {p : Char → Bool} : ∀ {l : List Char},
    (∀ x ∈ l, p x = true) → l.dropWhile p = []
  | [], _ => rfl
  | c :: t, h => by
    rw [List.dropWhile_cons_of_pos (h c (List.mem_cons_self c t))]
    exact dropWhile_all_eq_nil (fun x hx => h x (List.mem_cons_of_mem c hx))

theorem dropWhile_none_eq_self {p : Char → Bool} {l : List Char}
    (h : ∀ x ∈ l, p x = false) : l.dropWhile p = l := by
  cases l with
  | nil => rfl
  | cons c t =>
    exact List.dropWhile_cons_of_neg (by simp [h c (List.mem_cons_self c t)])

theorem takeWhile_append_cons_of {p : Char → Bool} {a : List Char} {c : Char}
    {b : List Char} (h : ∀ x ∈ a, p x = true) (hc : p c = false) :
    (a ++ c :: b).takeWhile p = a := by
  induction a with
  | nil =>
    simp only [List.nil_append]
    exact List.takeWhile_cons_of_neg (by simp [hc])
  | cons x t ih =>
    rw [List.cons_append,
      List.takeWhile_cons_of_pos (h x (List.mem_cons_self x t)),
      ih (fun y hy => h y (List.mem_cons_of_mem x hy))]

theorem dropWhile_append_cons_of {p : Char → Bool} {a : List Char} {c : Char}
    {b : List Char} (h : ∀ x ∈ a, p x = true) (hc : p c = false) :
    (a ++ c :: b).dropWhile p = c :: b := by
  induction a with
  | nil =>
    simp only [List.nil_append]
    exact List.dropWhile_cons_of_neg (by simp [hc])
  | cons x t ih =>
    rw [List.cons_append,
      List.dropWhile_cons_of_pos (h x (List.mem_cons_self x t)),
      ih (fun y hy => h y (List.mem_cons_of_mem x hy))]

theorem takeWhile_eq_take_length {p : Char → Bool} : ∀ (l : List Char),
    l.takeWhile p = l.take (l.takeWhile p).length
  | [] => rfl
  | c :: t => by
    by_cases hc : p c = true
    · rw [List.takeWhile_cons_of_pos hc]
      rw [List.length_cons, List.take_succ_cons]
      rw [← takeWhile_eq_take_length t]
    · rw [List.takeWhile_cons_of_neg (by simp [hc])]
      rfl

theorem mem_of_mem_takeWhile {p : Char → Bool} {l : List Char} {x : Char}
    (h : x ∈ l.takeWhile p) : x ∈ l :=
  (List.takeWhile_sublist p).subset h

theorem mem_of_mem_dropWhile {p : Char → Bool} {l : List Char} {x : Char}
    (h : x ∈ l.dropWhile p) : x ∈ l :=
  (List.dropWhile_sublist p).subset h

theorem contains_eq_false_of {l : List Char} {c : Char}
    (h : ∀ x ∈ l, x ≠ c) : l.contains c = false := by
  rw [Bool.eq_false_iff]
  intro hc
  exact h c (List.mem_of_elem_eq_true hc) rfl

theorem mem_of_contains_eq_true {l : List Char} {c : Char}
    (h : l.contains c = true) : c ∈ l :=
  List.mem_of_elem_eq_true h


theorem pred_of_mem_takeWhile (p : Char → Bool) {l : List Char} {x : Char}
    (h : x ∈ l.takeWhile p) : p x = true := by
  induction l with
  | nil => cases h
  | cons c t ih =>
    by_cases hc : p c = true
    · rw [List.takeWhile_cons_of_pos hc] at h
      rcases List.mem_cons.mp h with rfl | h'
      · exact hc
      · exact ih h'
    · rw [List.takeWhile_cons_of_neg (by simp [hc])] at h
      cases h

theorem takeWhile_all_holds (p : Char → Bool) (l : List Char) :
    (l.takeWhile p).all p = true := by
  rw [List.all_eq_true]
  exact fun x hx => pred_of_mem_takeWhile p hx

/-! ### Character class facts -/

theorem isUpper_iff (c : Char) : c.isUpper = true ↔ 65 ≤ c.toNat ∧ c.toNat ≤ 90 := by
  simp only [Char.isUpper, Bool.and_eq_true, decide_eq_true_eq, ge_iff_le]
  exact ⟨fun ⟨h1, h2⟩ => ⟨h1, h2⟩, fun ⟨h1, h2⟩ => ⟨h1, h2⟩⟩

theorem isLower_iff (c : Char) : c.isLower = true ↔ 97 ≤ c.toNat ∧ c.toNat ≤ 122 := by
  simp only [Char.isLower, Bool.and_eq_true, decide_eq_true_eq, ge_iff_le]
  exact ⟨fun ⟨h1, h2⟩ => ⟨h1, h2⟩, fun ⟨h1, h2⟩ => ⟨h1, h2⟩⟩

theorem isDigit_iff (c : Char) : c.isDigit = true ↔ 48 ≤ c.toNat ∧ c.toNat ≤ 57 := by
  simp only [Char.isDigit, Bool.and_eq_true, decide_eq_true_eq, ge_iff_le]
  exact ⟨fun ⟨h1, h2⟩ => ⟨h1, h2⟩, fun ⟨h1, h2⟩ => ⟨h1, h2⟩⟩

theorem isAlpha_iff (c : Char) : c.isAlpha = true ↔
    (65 ≤ c.toNat ∧ c.toNat ≤ 90) ∨ (97 ≤ c.toNat ∧ c.toNat ≤ 122) := by
  simp only [Char.isAlpha, Bool.or_eq_true, isUpper_iff, isLower_iff]

theorem isSchemeChar_gt20 {c : Char} (h : isSchemeChar c = true) : 0x20 < c.toNat := by
  simp only [isSchemeChar, Bool.or_eq_true, decide_eq_true_eq] at h
  rcases h with ((((h | h) | h) | h) | h)
  · rcases (isAlpha_iff c).mp h with h | h <;> omega
  · have := (isDigit_iff c).mp h
    omega
  · subst h; decide
  · subst h; decide
  · subst h; decide

theorem isSchemeChar_ne_delims {c : Char} (h : isSchemeChar c = true) :
    c ≠ ':' ∧ c ≠ '/' ∧ c ≠ '?' ∧ c ≠ '#' := by
  refine ⟨?_, ?_, ?_, ?_⟩ <;> (intro heq; subst heq; revert h; decide)

theorem toLower_toNat_of_upper (c : Char) (h : 65 ≤ c.toNat ∧ c.toNat ≤ 90) :
    (Char.toLower c).toNat = c.toNat + 32 := by
  have hv : (c.toNat + 32).isValidChar := Or.inl (by omega)
  simp only [Char.toLower, h, if_pos]
  rw [Char.ofNat, dif_pos hv]
  rfl

theorem toLower_eq_self (c : Char) (h : ¬(65 ≤ c.toNat ∧ c.toNat ≤ 90)) :
    Char.toLower c = c := by
  simp only [Char.toLower]
  rw [if_neg h]

theorem toLower_idem (c : Char) : Char.toLower (Char.toLower c) = Char.toLower c := by
  by_cases h : 65 ≤ c.toNat ∧ c.toNat ≤ 90
  · have h2 := toLower_toNat_of_upper c h
    apply toLower_eq_self
    omega
  · rw [toLower_eq_self c h, toLower_eq_self c h]

theorem isAlpha_toLower {c : Char} (h : c.isAlpha = true) :
    (Char.toLower c).isAlpha = true := by
  rcases (isAlpha_iff c).mp h with h' | h'
  · rw [isAlpha_iff, toLower_toNat_of_upper c h']
    omega
  · rw [toLower_eq_self c (by omega), isAlpha_iff]
    omega

theorem isSchemeChar_toLower {c : Char} (h : isSchemeChar c = true) :
    isSchemeChar (Char.toLower c) = true := by
  simp only [isSchemeChar, Bool.or_eq_true, decide_eq_true_eq] at h ⊢
  rcases h with ((((h | h) | h) | h) | h)
  · exact Or.inl (Or.inl (Or.inl (Or.inl (isAlpha_toLower h))))
  · have hd := (isDigit_iff c).mp h
    rw [toLower_eq_self c (by omega)]
    exact Or.inl (Or.inl (Or.inl (Or.inr h)))
  · subst h
    exact Or.inl (Or.inl (Or.inr (by decide)))
  · subst h
    exact Or.inl (Or.inr (by decide))
  · subst h
    exact Or.inr (by decide)

theorem toLower_gt20 {c : Char} (h : 0x20 < c.toNat) :
    0x20 < (Char.toLower c).toNat := by
  by_cases hu : 65 ≤ c.toNat ∧ c.toNat ≤ 90
  · rw [toLower_toNat_of_upper c hu]
    omega
  · rw [toLower_eq_self c hu]
    exact h

/-! ### `cleanUrl` facts -/

theorem mem_of_mem_stripEnds {p : Char → Bool} {l : List Char} {x : Char}
    (h : x ∈ stripEnds p l) : x ∈ l := by
  unfold stripEnds at h
  rw [List.mem_reverse] at h
  have h1 := mem_of_mem_dropWhile h
  rw [List.mem_reverse] at h1
  exact mem_of_mem_dropWhile h1

theorem mem_of_mem_cleanUrl {l : List Char} {x : Char}
    (h : x ∈ cleanUrl l) : x ∈ l := by
  unfold cleanUrl at h
  exact mem_of_mem_stripEnds (List.mem_of_mem_filter h)

theorem cleanUrl_eq_self {l : List Char} (h : ∀ c ∈ l, 0x20 < c.toNat) :
    cleanUrl l = l := by
  unfold cleanUrl stripEnds
  have hstrip : ∀ (m : List Char), (∀ c ∈ m, 0x20 < c.toNat) →
      m.dropWhile isC0OrSpace = m := by
    intro m hm
    refine dropWhile_none_eq_self (fun x hx => ?_)
    have := hm x hx
    simp only [isC0OrSpace, decide_eq_false_iff_not, not_le]
    omega
  rw [hstrip l h]
  rw [hstrip l.reverse (fun c hc => h c (List.mem_reverse.mp hc))]
  rw [List.reverse_reverse]
  refine List.filter_eq_self.mpr (fun c hc => ?_)
  have := h c hc
  simp only [unsafeByte, Bool.not_eq_true']
  simp only [Bool.or_eq_false_iff, decide_eq_false_iff_not]
  refine ⟨⟨?_, ?_⟩, ?_⟩ <;> (intro heq; subst heq; revert this; decide)

/-! ### `_splitparams` stability -/

theorem lastSeg_of_append {a0 seg : List Char}
    (hseg : ∀ x ∈ seg, x ≠ '/') :
    (((a0 ++ ['/']) ++ seg).reverse.takeWhile (fun c => c ≠ '/')).reverse = seg := by
  rw [List.reverse_append, List.reverse_append]
  have : (['/'] : List Char).reverse ++ a0.reverse = '/' :: a0.reverse := rfl
  rw [this]
  rw [takeWhile_append_cons_of
    (fun x hx => by
      simp only [decide_eq_true_eq]
      exact hseg x (List.mem_reverse.mp hx))
    (by decide)]
  rw [List.reverse_reverse]

theorem splitparamsPath_append {a0 seg : List Char}
    (hseg : ∀ x ∈ seg, x ≠ '/') :
    splitparamsPath ((a0 ++ ['/']) ++ seg) =
      if seg.contains ';' = true
      then (a0 ++ ['/']) ++ seg.takeWhile (fun c => c ≠ ';')
      else (a0 ++ ['/']) ++ seg := by
  unfold splitparamsPath
  rw [if_pos (List.elem_eq_true_of_mem (by
    refine List.mem_append_left _ ?_
    exact List.mem_append_right _ (List.mem_singleton_self '/')))]
  simp only [lastSeg_of_append hseg]
  by_cases hc : seg.contains ';' = true
  · rw [if_pos hc, if_pos hc]
    have hlen : ((a0 ++ ['/']) ++ seg).length - seg.length = (a0 ++ ['/']).length := by
      rw [List.length_append]
      omega
    rw [hlen, List.take_append, ← takeWhile_eq_take_length]
  · rw [if_neg hc, if_neg hc]

theorem splitparamsPath_stable {p : List Char}
    (h : (splitparamsPath p).contains ';' = true) :
    splitparamsPath (splitparamsPath p) = splitparamsPath p := by
  by_cases hs : p.contains '/' = true
  · -- decompose p around its last '/'
    have hrest : p.reverse.dropWhile (fun c => c ≠ '/') ≠ [] := by
      intro hnil
      have hall : p.reverse.takeWhile (fun c => c ≠ '/') = p.reverse := by
        have := List.takeWhile_append_dropWhile (p := fun c => decide (c ≠ '/'))
          (l := p.reverse)
        rw [hnil, List.append_nil] at this
        exact this
      have hmem := mem_of_contains_eq_true hs
      rw [← List.mem_reverse] at hmem
      rw [← hall] at hmem
      have := List.mem_takeWhile_imp hmem
      simp at this
    obtain ⟨r0, a', hr⟩ := List.exists_cons_of_ne_nil hrest
    have hr0 : r0 = '/' := by
      have h0 := List.head?_dropWhile_not (fun c => decide (c ≠ '/')) p.reverse
      rw [hr] at h0
      simp only [List.head?_cons] at h0
      simpa using h0
    subst hr0
    have hp : p = (a'.reverse ++ ['/']) ++
        (p.reverse.takeWhile (fun c => c ≠ '/')).reverse := by
      have hsplit := List.takeWhile_append_dropWhile
        (p := fun c => decide (c ≠ '/')) (l := p.reverse)
      rw [hr] at hsplit
      calc p = p.reverse.reverse := (List.reverse_reverse p).symm
        _ = ((p.reverse.takeWhile (fun c => c ≠ '/')) ++ '/' :: a').reverse := by
              rw [hsplit]
        _ = ('/' :: a').reverse ++
              (p.reverse.takeWhile (fun c => c ≠ '/')).reverse := by
              rw [List.reverse_append]
        _ = (a'.reverse ++ ['/']) ++
              (p.reverse.takeWhile (fun c => c ≠ '/')).reverse := by
              rw [List.reverse_cons]
    set seg := (p.reverse.takeWhile (fun c => c ≠ '/')).reverse with hsegdef
    have hseg : ∀ x ∈ seg, x ≠ '/' := by
      intro x hx
      rw [hsegdef, List.mem_reverse] at hx
      have := List.mem_takeWhile_imp hx
      simpa using this
    rw [hp, splitparamsPath_append hseg] at h ⊢
    by_cases hsc : seg.contains ';' = true
    · rw [if_pos hsc] at h ⊢
      have htw : ∀ x ∈ seg.takeWhile (fun c => c ≠ ';'), x ≠ '/' :=
        fun x hx => hseg x (mem_of_mem_takeWhile hx)
      rw [splitparamsPath_append htw]
      rw [if_neg (by
        rw [contains_eq_false_of (fun x hx => by
          have := List.mem_takeWhile_imp hx
          simpa using this)]
        simp)]
    · rw [if_neg hsc] at h ⊢
      rw [splitparamsPath_append hseg, if_neg hsc]
  · -- no '/' in p : the result has no ';', contradicting h
    exfalso
    unfold splitparamsPath at h
    rw [if_neg hs] at h
    rw [contains_eq_false_of (fun x hx => by
      have := List.mem_takeWhile_imp hx
      simpa using this)] at h
    cases h

theorem splitparamsPath_take (p : List Char) :
    ∃ k, splitparamsPath p = p.take k := by
  unfold splitparamsPath
  by_cases hs : p.contains '/' = true
  · rw [if_pos hs]
    by_cases hc : ((p.reverse.takeWhile (fun c => c ≠ '/')).reverse).contains ';' = true
    · simp only [hc, if_true]
      exact ⟨_, rfl⟩
    · simp only [hc, if_false]
      exact ⟨p.length, (List.take_length p).symm⟩
  · rw [if_neg hs]
    exact ⟨(p.takeWhile (fun c => c ≠ ';')).length, takeWhile_eq_take_length p⟩

/-- The invariants `urlparsePy` guarantees about a successful result. -/
theorem parseSchemeSplit_good (l : List Char) (s l1 : List Char)
    (h : parseSchemeSplit l = (s, l1)) :
    s.map toLowerA = s ∧ s.all isSchemeChar = true ∧
    (s = [] ∨ s.head?.any Char.isAlpha = true) ∧ (∀ c ∈ l1, c ∈ l) := by
  unfold parseSchemeSplit at h
  simp only [] at h
  split at h
  · rename_i hcond
    obtain ⟨hlen, hne, hhead, hall⟩ := hcond
    injection h with h1 h2
    subst h1
    subst h2
    refine ⟨?_, ?_, ?_, ?_⟩
    · rw [List.map_map]
      exact List.map_congr_left (fun c _ => toLower_idem c)
    · rw [List.all_eq_true] at hall ⊢
      intro x hx
      obtain ⟨c, hc, rfl⟩ := List.mem_map.mp hx
      exact isSchemeChar_toLower (hall c hc)
    · right
      cases hl : l.takeWhile (fun c => decide (c ≠ ':')) with
      | nil => exact absurd hl hne
      | cons c t =>
        rw [hl] at hhead
        simp only [List.head?_cons, Option.any_some] at hhead
        simp only [hl, List.map_cons, List.head?_cons, Option.any_some]
        exact isAlpha_toLower hhead
    · intro c hc
      exact List.drop_subset _ l hc
  · injection h with h1 h2
    subst h1
    subst h2
    exact ⟨rfl, rfl, Or.inl rfl, fun c hc => hc⟩

theorem netlocSplit_good (l1 n l2 : List Char)
    (h : netlocSplit l1 = .ok (n, l2)) :
    n.all (fun c => !urlDelim c) = true ∧ (n.contains '[' = n.contains ']') ∧
    (l2 = [] ∨ n = [] ∨ ∃ c t, l2 = c :: t ∧ urlDelim c = true) ∧
    (∀ c ∈ n, c ∈ l1) ∧ (∀ c ∈ l2, c ∈ l1) := by
  unfold netlocSplit at h
  split at h
  · rename_i rest
    simp only [] at h
    split at h
    · cases h
    · rename_i hbad
      injection h with h1
      injection h1 with hn hl2
      subst hn
      subst hl2
      refine ⟨?_, ?_, ?_, ?_, ?_⟩
      · exact takeWhile_all_holds (fun c => !urlDelim c) rest
      · revert hbad
        cases hb1 : (rest.takeWhile (fun c => !urlDelim c)).contains '[' <;>
          cases hb2 : (rest.takeWhile (fun c => !urlDelim c)).contains ']' <;>
            simp
      · cases hd : rest.dropWhile (fun c => !urlDelim c) with
        | nil => exact Or.inl rfl
        | cons c t =>
          refine Or.inr (Or.inr ⟨c, t, rfl, ?_⟩)
          have h0 := List.head?_dropWhile_not (fun c => !urlDelim c) rest
          rw [hd] at h0
          simp only [List.head?_cons] at h0
          simpa using h0
      · intro c hc
        exact List.mem_cons_of_mem _ (List.mem_cons_of_mem _ (mem_of_mem_takeWhile hc))
      · intro c hc
        exact List.mem_cons_of_mem _ (List.mem_cons_of_mem _ (mem_of_mem_dropWhile hc))
  · injection h with h1
    injection h1 with hn hl2
    subst hn
    subst hl2
    exact ⟨rfl, rfl, Or.inr (Or.inl rfl), by simp, fun c hc => hc⟩

theorem urlsplit_good (l : List Char) (r0 : SplitResultPy)
    (h : urlsplitPy l = .ok r0) :
    (r0.scheme.map toLowerA = r0.scheme ∧ r0.scheme.all isSchemeChar = true ∧
      (r0.scheme = [] ∨ r0.scheme.head?.any Char.isAlpha = true)) ∧
    (r0.netloc.all (fun c => !urlDelim c) = true ∧
      r0.netloc.contains '[' = r0.netloc.contains ']') ∧
    (r0.netloc ≠ [] → (r0.path = [] ∨ ∃ t, r0.path = '/' :: t)) ∧
    (r0.path.all (fun c => decide (c ≠ '#') && decide (c ≠ '?')) = true) ∧
    (r0.query.all (fun c => decide (c ≠ '#')) = true) ∧
    ((∀ c ∈ r0.netloc, c ∈ cleanUrl l) ∧ (∀ c ∈ r0.path, c ∈ cleanUrl l) ∧
      (∀ c ∈ r0.query, c ∈ cleanUrl l)) := by
  unfold urlsplitPy at h
  simp only [] at h
  rcases hps : parseSchemeSplit (cleanUrl l) with ⟨scheme, l1⟩
  rw [hps] at h
  simp only [] at h
  cases hns : netlocSplit l1 with
  | error e =>
    rw [hns] at h
    cases h
  | ok pr =>
    rcases pr with ⟨netloc, l2⟩
    rw [hns] at h
    simp only [] at h
    rcases h3 : splitOnFirst '#' l2 with ⟨l3, frag⟩
    rw [h3] at h
    simp only [] at h
    rcases h4 : splitOnFirst '?' l3 with ⟨path, query⟩
    rw [h4] at h
    simp only [] at h
    injection h with h5
    subst h5
    dsimp only
    obtain ⟨hs1, hs2, hs3, hsub1⟩ := parseSchemeSplit_good _ _ _ hps
    obtain ⟨hn1, hn2, hn3, hnsub1, hnsub2⟩ := netlocSplit_good _ _ _ hns
    unfold splitOnFirst at h3 h4
    injection h3 with h3a h3b
    injection h4 with h4a h4b
    have hpathsub : ∀ c ∈ path, c ∈ l2 := by
      intro c hc
      rw [← h4a] at hc
      have hc2 : c ∈ l3 := mem_of_mem_takeWhile hc
      rw [← h3a] at hc2
      exact mem_of_mem_takeWhile hc2
    have hquerysub : ∀ c ∈ query, c ∈ l2 := by
      intro c hc
      rw [← h4b] at hc
      have hc2 : c ∈ l3 := mem_of_mem_dropWhile (List.mem_of_mem_drop hc)
      rw [← h3a] at hc2
      exact mem_of_mem_takeWhile hc2
    refine ⟨⟨hs1, hs2, hs3⟩, ⟨hn1, hn2⟩, ?_, ?_, ?_, ?_, ?_, ?_⟩
    · -- path head
      intro hne
      rcases hn3 with hl2 | hnl | ⟨c, t, hl2, hc⟩
      · subst hl2
        left
        rw [← h4a, ← h3a]
        rfl
      · exact absurd hnl hne
      · subst hl2
        have hc3 : urlDelim c = true := hc
        simp only [urlDelim, Bool.or_eq_true, decide_eq_true_eq] at hc3
        rcases hc3 with (rfl | rfl) | rfl
        · -- '/' : path starts with '/'
          right
          rw [← h4a, ← h3a]
          rw [List.takeWhile_cons_of_pos (by decide)]
          rw [List.takeWhile_cons_of_pos (by decide)]
          exact ⟨_, rfl⟩
        · -- '?'
          left
          rw [← h4a, ← h3a]
          rw [List.takeWhile_cons_of_pos (by decide)]
          rw [List.takeWhile_cons_of_neg (by decide)]
        · -- '#'
          left
          rw [← h4a, ← h3a]
          rw [List.takeWhile_cons_of_neg (by decide)]
          rfl
    · -- path chars
      rw [List.all_eq_true]
      intro x hx
      have hx1 : x ∈ l3.takeWhile (fun y => decide (y ≠ '?')) := by
        rw [h4a]
        exact hx
      have hq : decide (x ≠ '?') = true :=
        pred_of_mem_takeWhile (fun y => decide (y ≠ '?')) hx1
      have hx2 : x ∈ l2.takeWhile (fun y => decide (y ≠ '#')) := by
        rw [h3a]
        exact mem_of_mem_takeWhile hx1
      have hh : decide (x ≠ '#') = true :=
        pred_of_mem_takeWhile (fun y => decide (y ≠ '#')) hx2
      rw [Bool.and_eq_true]
      exact ⟨hh, hq⟩
    · -- query chars
      rw [List.all_eq_true]
      intro x hx
      have hx1 : x ∈ l3 := by
        rw [← h4b] at hx
        exact mem_of_mem_dropWhile (List.mem_of_mem_drop hx)
      have hx2 : x ∈ l2.takeWhile (fun y => decide (y ≠ '#')) := by
        rw [h3a]
        exact hx1
      exact pred_of_mem_takeWhile (fun y => decide (y ≠ '#')) hx2
    · intro c hc
      exact hsub1 c (hnsub1 c hc)
    · intro c hc
      exact hsub1 c (hnsub2 c (hpathsub c hc))
    · intro c hc
      exact hsub1 c (hnsub2 c (hquerysub c hc))

theorem urlparse_good (l : List Char) (r : SplitResultPy)
    (h : urlparsePy l = .ok r) :
    GoodParts r ∧ (∀ c ∈ r.netloc, c ∈ l) ∧ (∀ c ∈ r.path, c ∈ l) ∧
      (∀ c ∈ r.query, c ∈ l) := by
  unfold urlparsePy at h
  cases hsp : urlsplitPy l with
  | error e =>
    rw [hsp] at h
    cases h
  | ok r0 =>
    rw [hsp] at h
    simp only [Except.map] at h
    injection h with h1
    obtain ⟨⟨hs1, hs2, hs3⟩, ⟨hn1, hn2⟩, hph, hpc, hqc, hmn, hmp, hmq⟩ :=
      urlsplit_good l r0 hsp
    split at h1
    · rename_i hcond
      subst h1
      refine ⟨⟨hs1, hs2, hs3, hn1, hn2, ?_, ?_, hqc, ?_⟩, ?_, ?_, ?_⟩
      · -- path head through splitparams (a take-prefix)
        intro hne
        obtain ⟨k, hk⟩ := splitparamsPath_take r0.path
        simp only [hk]
        rcases hph hne with hp | ⟨t, hp⟩
        · left
          rw [hp]
          simp
        · rw [hp]
          cases k with
          | zero => exact Or.inl rfl
          | succ k => exact Or.inr ⟨_, rfl⟩
      · -- path chars preserved by take
        obtain ⟨k, hk⟩ := splitparamsPath_take r0.path
        simp only [hk]
        rw [List.all_eq_true] at hpc ⊢
        intro x hx
        exact hpc x (List.take_subset k r0.path hx)
      · -- params stability
        intro _ hsc
        exact splitparamsPath_stable hsc
      · exact fun c hc => mem_of_mem_cleanUrl (hmn c hc)
      · intro c hc
        obtain ⟨k, hk⟩ := splitparamsPath_take r0.path
        simp only [hk] at hc
        exact mem_of_mem_cleanUrl (hmp c (List.take_subset k r0.path hc))
      · exact fun c hc => mem_of_mem_cleanUrl (hmq c hc)
    · rename_i hcond
      subst h1
      refine ⟨⟨hs1, hs2, hs3, hn1, hn2, hph, hpc, hqc, ?_⟩, ?_, ?_, ?_⟩
      · intro hu hc
        exact absurd ⟨hu, hc⟩ hcond
      · exact fun c hc => mem_of_mem_cleanUrl (hmn c hc)
      · exact fun c hc => mem_of_mem_cleanUrl (hmp c hc)
      · exact fun c hc => mem_of_mem_cleanUrl (hmq c hc)

theorem schemeChar_of_mem {s : List Char} (hall : s.all isSchemeChar = true)
    {c : Char} (hc : c ∈ s) : isSchemeChar c = true :=
  List.all_eq_true.mp hall c hc

theorem urlsplit_reconstruct (r : SplitResultPy) (hg : GoodParts r)
    (hs : r.scheme ≠ []) (hn : r.netloc ≠ [])
    (hgtn : ∀ c ∈ r.netloc, 0x20 < c.toNat)
    (hgtp : ∀ c ∈ r.path, 0x20 < c.toNat)
    (hgtq : ∀ c ∈ r.query, 0x20 < c.toNat) :
    urlsplitPy (reconstructUrl r) =
      .ok ⟨r.scheme, r.netloc, r.path, r.query, []⟩ := by
  obtain ⟨hlow, hchars, hhead, hnall, hnbr, hphead, hpall, hqall, hstable⟩ := hg
  rcases r with ⟨s, n, p, q, f⟩
  show urlsplitPy (reconstructUrl ⟨s, n, p, q, f⟩) = .ok ⟨s, n, p, q, []⟩
  -- the query suffix
  set qq : List Char := if q.isEmpty then [] else '?' :: q with hqq
  have hqqcase : (qq = [] ∧ q = []) ∨ qq = '?' :: q := by
    rw [hqq]
    cases q with
    | nil => exact Or.inl ⟨rfl, rfl⟩
    | cons qc qt => exact Or.inr rfl
  have hshape : reconstructUrl ⟨s, n, p, q, f⟩ =
      s ++ ':' :: '/' :: '/' :: (n ++ (p ++ qq)) := by
    unfold reconstructUrl
    dsimp only
    rw [← hqq]
    simp [List.append_assoc]
  -- all characters above 0x20
  have hscheme20 : ∀ c ∈ s, 0x20 < c.toNat := fun c hc =>
    isSchemeChar_gt20 (schemeChar_of_mem hchars hc)
  have hall20 : ∀ c ∈ reconstructUrl ⟨s, n, p, q, f⟩, 0x20 < c.toNat := by
    rw [hshape]
    intro c hc
    rw [List.mem_append] at hc
    rcases hc with hc | hc
    · exact hscheme20 c hc
    · rcases List.mem_cons.mp hc with rfl | hc
      · decide
      · rcases List.mem_cons.mp hc with rfl | hc
        · decide
        · rcases List.mem_cons.mp hc with rfl | hc
          · decide
          · rw [List.mem_append] at hc
            rcases hc with hc | hc
            · exact hgtn c hc
            · rw [List.mem_append] at hc
              rcases hc with hc | hc
              · exact hgtp c hc
              · rcases hqqcase with ⟨hqnil, -⟩ | hq
                · rw [hqnil] at hc
                  cases hc
                · rw [hq] at hc
                  rcases List.mem_cons.mp hc with rfl | hc
                  · decide
                  · exact hgtq c hc
  -- scheme characters are never delimiters
  have hsne : ∀ c ∈ s, (decide (c ≠ ':')) = true := by
    intro c hc
    have := (isSchemeChar_ne_delims (schemeChar_of_mem hchars hc)).1
    simpa using this
  -- step 1 : scheme recognition
  have hpss : parseSchemeSplit (s ++ ':' :: '/' :: '/' :: (n ++ (p ++ qq))) =
      (s, '/' :: '/' :: (n ++ (p ++ qq))) := by
    unfold parseSchemeSplit
    simp only []
    rw [takeWhile_append_cons_of hsne (by decide)]
    rw [if_pos ?side]
    case side =>
      refine ⟨by simp, hs, ?_, hchars⟩
      rcases hhead with h | h
      · exact absurd h hs
      · exact h
    have hdrop : (s ++ ':' :: '/' :: '/' :: (n ++ (p ++ qq))).drop (s.length + 1) =
        '/' :: '/' :: (n ++ (p ++ qq)) := by
      have : s ++ ':' :: '/' :: '/' :: (n ++ (p ++ qq)) =
          (s ++ [':']) ++ '/' :: '/' :: (n ++ (p ++ qq)) := by
        simp
      rw [this]
      exact List.drop_left' (by simp)
    rw [hdrop, hlow]
  -- step 2 : netloc
  have hnpred : ∀ c ∈ n, (!urlDelim c) = true := List.all_eq_true.mp hnall
  have hppred : ∀ c ∈ p, (decide (c ≠ '#')) = true ∧ (decide (c ≠ '?')) = true := by
    intro c hc
    have := List.all_eq_true.mp hpall c hc
    rw [Bool.and_eq_true] at this
    exact this
  have hqpred : ∀ c ∈ q, (decide (c ≠ '#')) = true := List.all_eq_true.mp hqall
  have htw : (n ++ (p ++ qq)).takeWhile (fun c => !urlDelim c) = n ∧
      (n ++ (p ++ qq)).dropWhile (fun c => !urlDelim c) = p ++ qq := by
    rcases hphead hn with hp | ⟨t, hp⟩
    · subst hp
      rcases hqqcase with ⟨hqnil, -⟩ | hq
      · rw [hqnil]
        simp only [List.nil_append, List.append_nil]
        exact ⟨takeWhile_all_eq hnpred, dropWhile_all_eq_nil hnpred⟩
      · rw [hq]
        simp only [List.nil_append]
        exact ⟨takeWhile_append_cons_of hnpred (by decide),
          dropWhile_append_cons_of hnpred (by decide)⟩
    · subst hp
      rw [List.cons_append]
      exact ⟨takeWhile_append_cons_of hnpred (by decide),
        dropWhile_append_cons_of hnpred (by decide)⟩
  have hnl : netlocSplit ('/' :: '/' :: (n ++ (p ++ qq))) = .ok (n, p ++ qq) := by
    unfold netlocSplit
    simp only [htw.1, htw.2]
    rw [if_neg ?bneg]
    case bneg =>
      rw [hnbr]
      cases n.contains ']' <;> simp
  -- step 3 : fragment split
  have hfrag : splitOnFirst '#' (p ++ qq) = (p ++ qq, []) := by
    have hpredall : ∀ c ∈ p ++ qq, (decide (c ≠ '#')) = true := by
      intro c hc
      rw [List.mem_append] at hc
      rcases hc with hc | hc
      · exact (hppred c hc).1
      · rcases hqqcase with ⟨hqnil, -⟩ | hq
        · rw [hqnil] at hc
          cases hc
        · rw [hq] at hc
          rcases List.mem_cons.mp hc with rfl | hc
          · decide
          · exact hqpred c hc
    unfold splitOnFirst
    rw [takeWhile_all_eq hpredall, dropWhile_all_eq_nil hpredall]
    rfl
  -- step 4 : query split
  have hquery : splitOnFirst '?' (p ++ qq) = (p, q) := by
    have hpq : ∀ c ∈ p, (decide (c ≠ '?')) = true := fun c hc => (hppred c hc).2
    rcases hqqcase with ⟨hqnil, hqnil2⟩ | hq
    · rw [hqnil, hqnil2, List.append_nil]
      unfold splitOnFirst
      rw [takeWhile_all_eq hpq, dropWhile_all_eq_nil hpq]
      rfl
    · rw [hq]
      unfold splitOnFirst
      rw [takeWhile_append_cons_of hpq (by decide),
        dropWhile_append_cons_of hpq (by decide)]
      rfl
  -- assemble
  unfold urlsplitPy
  simp only []
  rw [cleanUrl_eq_self hall20, hshape, hpss]
  simp only []
  rw [hnl]
  simp only [hfrag, hquery]

theorem urlparse_reconstruct (r : SplitResultPy) (hg : GoodParts r)
    (hs : r.scheme ≠ []) (hn : r.netloc ≠ [])
    (hgtn : ∀ c ∈ r.netloc, 0x20 < c.toNat)
    (hgtp : ∀ c ∈ r.path, 0x20 < c.toNat)
    (hgtq : ∀ c ∈ r.query, 0x20 < c.toNat) :
    urlparsePy (reconstructUrl r) =
      .ok ⟨r.scheme, r.netloc, r.path, r.query, []⟩ := by
  unfold urlparsePy
  rw [urlsplit_reconstruct r hg hs hn hgtn hgtp hgtq]
  simp only [Except.map]
  by_cases hcond : usesParams.contains r.scheme = true ∧ r.path.contains ';' = true
  · rw [if_pos hcond]
    rw [hg.params_stable hcond.1 hcond.2]
  · rw [if_neg hcond]



/-- Faithfulness of the heading-pass iteration: the headings enumerated by
`headingGroups` are exactly `soup.find_all(['h1','h2','h3'])` in document
order. -/
theorem headingGroups_fst_list : ∀ (l : NodeList),
    (headingGroups l).map Prod.fst =
      (descendantsList l).filter (fun d => headingTags.contains (tagOf d))
  | .nil => rfl
  | .cons (.text s) rest => by
      simp only [headingGroups, descendantsList]
      exact headingGroups_fst_list rest
  | .cons (.elem t a cs) rest => by
      simp only [headingGroups, descendantsList, List.map_append,
        List.filter_cons]
      rw [headingGroups_fst_list cs, headingGroups_fst_list rest]
      by_cases h : t ∈ headingTags
      · simp [tagOf, h]
      · simp [tagOf, h]

/-- The heading pass builds one candidate section per
`soup.find_all(['h1','h2','h3'])` element, in document order. -/
theorem headingGroups_eq_findAll (soup : Node) :
    (headingGroups (childrenOf soup)).map Prod.fst =
      findAllTags headingTags soup := by
  unfold findAllTags strictDescendants
  exact headingGroups_fst_list (childrenOf soup)


/-! ## C1 — the end-to-end heading-pass example -/

/-- C1, counterexample: on `<h1>A</h1><p>(220 chars)</p><h2>B</h2><p>text</p>`
the builder does **not** produce 2 sections — the `B` section's text is the
4-character `"text"` with no links/images/lists/tables, so the
meaningful-content filter drops it and only `section-0` survives. -/
theorem C1_counterexample :
    (parse_sections ujId "http://e.com/" c1soup).map Section.id = ["section-0"] ∧
    (parse_sections ujId "http://e.com/" c1soup).length ≠ 2 := by
  exact ⟨rfl, by decide⟩

/-- C1 (amended): the heading-fallback pass (there are no landmarks) yields
exactly 1 retained section, id `section-0`, heading `"A"` — the `section-1`
built for heading `"B"` is dropped for lack of meaningful content — and the
sufficiency predicate classifies the result as sufficient. -/
theorem C1_amended : ∀ (uj : String → String → String) (base : String),
    parse_sections uj base c1soup = parse_by_headings uj base c1soup ∧
    (parse_sections uj base c1soup).map Section.id = ["section-0"] ∧
    (parse_sections uj base c1soup).map Section.heading = ["A"] ∧
    (parse_sections uj base c1soup).length = 1 ∧
    is_sufficient (staticResult uj base c1soup) = true := by
  intro uj base
  exact ⟨rfl, rfl, rfl, rfl, rfl⟩

/-! ## C5 — fallback trigger condition -/

/-- C5, counterexample: a page with exactly one meaningful landmark and no
headings.  The landmark pass yields 1 section (not zero), yet `parse_sections`
discards it and produces the synthesized fallback section — refuting "the
fallback is produced exactly when both passes yield zero retained sections". -/
theorem C5_counterexample :
    (landmarkSections ujId "http://e.com/" c5soup).length = 1 ∧
    parse_sections ujId "http://e.com/" c5soup =
      fallback_section ujId "http://e.com/" c5soup ∧
    (parse_sections ujId "http://e.com/" c5soup).map Section.heading =
      ["Main Content"] := by
  exact ⟨rfl, rfl, rfl⟩

/-- C5 (amended): `parse_sections` always returns at least one section; the
output is exactly one pass's output (landmark pass when it retains ≥ 2
sections, else the heading pass when that is nonempty, else the fallback — so
the single synthesized fallback section, heading `"Main Content"`, is produced
exactly when the heading pass yields zero retained sections **and** the
landmark pass yields fewer than 2). -/
theorem C5_amended : ∀ (uj : String → String → String) (base : String) (soup : Node),
    parse_sections uj base soup ≠ [] ∧
    (2 ≤ (landmarkSections uj base soup).length →
      parse_sections uj base soup = landmarkSections uj base soup) ∧
    ((landmarkSections uj base soup).length < 2 →
      parse_by_headings uj base soup ≠ [] →
      parse_sections uj base soup = parse_by_headings uj base soup) ∧
    ((landmarkSections uj base soup).length < 2 →
      parse_by_headings uj base soup = [] →
      parse_sections uj base soup = fallback_section uj base soup) ∧
    (fallback_section uj base soup).length = 1 ∧
    (∀ s ∈ fallback_section uj base soup, s.heading = "Main Content") := by
  intro uj base soup
  refine ⟨parse_sections_ne_nil uj base soup, ?_, ?_, ?_, ?_, ?_⟩
  · intro h
    have hne : ¬((landmarkSections uj base soup).isEmpty = true) := by
      simp only [List.isEmpty_iff]
      intro hnil
      rw [hnil] at h
      simp at h
    simp only [parse_sections]
    rw [if_neg (show ¬((landmarkSections uj base soup).length < 2) by omega)]
    rw [if_neg hne]
  · intro h hne
    simp only [parse_sections]
    rw [if_pos h, if_neg (by simpa [List.isEmpty_iff] using hne)]
  · intro h hnil
    simp only [parse_sections]
    rw [if_pos h, hnil]
    rfl
  · simp [fallback_section]
  · intro s hs
    simp only [fallback_section, List.mem_singleton] at hs
    rw [hs]

/-! ## C8 — rawHtml truncation -/

/-- C8, counterexample: a 501-character source serializes to a 503-character
`rawHtml` (500 characters plus a 3-character `"..."`), violating "at most 500
characters". -/
theorem C8_counterexample : ¬ (truncate_html s501).length ≤ 500 := by
  decide

/-- C8 (amended): every section's `rawHtml` is at most 503 characters — 500 of
the source serialization plus the 3-character ellipsis marker; markup of up to
500 characters is kept unchanged, and longer markup is cut to exactly its first
500 characters followed by `"..."`. -/
theorem C8_amended :
    (∀ (uj : String → String → String) (base : String) (soup : Node),
      ∀ sec ∈ parse_sections uj base soup, sec.rawHtml.length ≤ 503) ∧
    (∀ s : String, s.length ≤ 500 → truncate_html s = s) ∧
    (∀ s : String, 500 < s.length → (truncate_html s).length = 503 ∧
      (truncate_html s).toList = s.toList.take 500 ++ ['.', '.', '.']) := by
  refine ⟨?_, ?_, ?_⟩
  · intro uj base soup sec hsec
    have hex : ∃ h : String, sec.rawHtml = truncate_html h := by
      simp only [parse_sections] at hsec
      split at hsec <;> split at hsec <;>
        first
        | (simp only [fallback_section, List.mem_singleton] at hsec
           exact ⟨_, by rw [hsec]⟩)
        | (simp only [parse_by_headings] at hsec
           obtain ⟨x, -, rfl⟩ := List.mem_map.mp (List.mem_of_mem_filter hsec)
           exact ⟨_, rfl⟩)
        | (simp only [landmarkSections] at hsec
           obtain ⟨x, -, rfl⟩ := List.mem_map.mp (List.mem_of_mem_filter hsec)
           exact ⟨_, rfl⟩)
    obtain ⟨h, hraw⟩ := hex
    rw [hraw]
    exact truncate_html_length_le h
  · intro s h
    rw [truncate_html]
    rw [if_pos (by simpa [MAX_HTML_LENGTH] using h)]
  · intro s h
    rw [truncate_html]
    rw [if_neg (by simp only [MAX_HTML_LENGTH]; omega)]
    have hlen : (pyTake s MAX_HTML_LENGTH).length = 500 := by
      have h1 : (pyTake s MAX_HTML_LENGTH).length = (s.toList.take 500).length := rfl
      rw [h1, List.length_take]
      have h2 : s.toList.length = s.length := rfl
      omega
    constructor
    · rw [String.length_append, hlen]
      rfl
    · show (pyTake s MAX_HTML_LENGTH).toList ++ "...".toList = s.toList.take 500 ++ ['.', '.', '.']
      rfl


/-! ## C2 — the sufficiency predicate -/

/-- C2: `is_sufficient` classifies a result insufficient iff the section count
is < 1, or the summed text length is < 200, or no section has non-empty text, a
link, or an image; 3 plain-text sections totalling 150 characters are
insufficient, the same with 250 characters sufficient. -/
theorem C2_sufficiency :
    (∀ r : ScrapeResult, is_sufficient r = false ↔
      (r.sections.length < 1 ∨ totalTextLength r.sections < 200 ∨
        ∀ s ∈ r.sections, s.text = "" ∧ s.links = [] ∧ s.images = [])) ∧
    is_sufficient (plainTextResult [50, 50, 50]) = false ∧
    is_sufficient (plainTextResult [84, 83, 83]) = true :=
  ⟨is_sufficient_false_iff, by decide, by decide⟩

/-! ## C4 — degraded results at the dispatch boundary -/

/-- C4: a classified failure (`NetworkError`/`ParsingError` from the static
path, `JSRenderError` from the rendered path) makes the dispatch return the
degraded result — original request URL, timestamp, empty meta, empty sections,
empty interactions, a single error message — as a successful response; a
static-path failure returns without consulting the rendered path at all (the
result is the same for every `js` thunk); an unclassified exception is not
downgraded but propagates as an error. -/
theorem C4_degraded :
    (∀ (url now msg : String) (k : ErrKind)
        (js : Unit → Except PyExc ScrapeResult),
      scrapeDispatch url now (.error (.scraper k msg)) js =
        .ok (degradedResult url now msg)) ∧
    (∀ (url now msg : String) (k : ErrKind)
        (js : Unit → Except PyExc ScrapeResult) (r : ScrapeResult),
      is_sufficient r = false → js () = .error (.scraper k msg) →
      scrapeDispatch url now (.ok r) js = .ok (degradedResult url now msg)) ∧
    (∀ (url now msg : String) (js : Unit → Except PyExc ScrapeResult),
      scrapeDispatch url now (.error (.other msg)) js = .error msg) ∧
    (∀ (url now msg : String) (js : Unit → Except PyExc ScrapeResult)
        (r : ScrapeResult),
      is_sufficient r = false → js () = .error (.other msg) →
      scrapeDispatch url now (.ok r) js = .error msg) ∧
    (∀ url now msg : String,
      (degradedResult url now msg).url = url ∧
      (degradedResult url now msg).scrapedAt = now ∧
      (degradedResult url now msg).meta = emptyMeta ∧
      (degradedResult url now msg).sections = [] ∧
      (degradedResult url now msg).interactions = emptyInteractions ∧
      (degradedResult url now msg).errors = [msg]) := by
  refine ⟨?_, ?_, ?_, ?_, ?_⟩
  · intro url now msg k js
    rfl
  · intro url now msg k js r hins hjs
    simp only [scrapeDispatch, hins, hjs]
    simp
  · intro url now msg js
    rfl
  · intro url now msg js r hins hjs
    simp only [scrapeDispatch, hins, hjs]
    simp
  · intro url now msg
    exact ⟨rfl, rfl, rfl, rfl, rfl, rfl⟩

/-- C4, witness: an insufficient static result followed by a failing render
produces the degraded result. -/
theorem C4_degraded_witness :
    scrapeDispatch "http://e.com/" "2026-10-12T00:00:00Z" (.ok emptyOkResult)
        jsFailRender =
      .ok (degradedResult "http://e.com/" "2026-10-12T00:00:00Z"
        "Failed to render page: boom") :=
  C4_degraded.2.1 "http://e.com/" "2026-10-12T00:00:00Z"
    "Failed to render page: boom" .render jsFailRender emptyOkResult
    (by decide) rfl

/-! ## C6 — the pagination phase -/

/-- C6: the pagination phase records at most `maxDepth - 1` entries; the
`pageNumber`s are `2, 3, …` consecutively; the recorded URLs are pairwise
distinct and never the seeded starting URL; and a first click that lands on the
already-visited starting URL ends the phase with no entries. -/
theorem C6_pagination : ∀ (env : Nat → Option String) (startUrl : String) (d : Nat),
    (handle_pagination env startUrl d).length ≤ d - 1 ∧
    (handle_pagination env startUrl d).map PageEntry.pageNumber =
      List.range' 2 (handle_pagination env startUrl d).length 1 ∧
    ((handle_pagination env startUrl d).map PageEntry.url).Nodup ∧
    (∀ u ∈ (handle_pagination env startUrl d).map PageEntry.url, u ≠ startUrl) ∧
    (env 0 = some startUrl → handle_pagination env startUrl d = []) := by
  intro env startUrl d
  obtain ⟨h1, h2, h3, h4⟩ :=
    paginateLoop_spec env d (d - 1) [startUrl] 1 0 (by omega)
  refine ⟨h1, h2, h4, ?_, ?_⟩
  · intro u hu
    have := h3 u hu
    simp only [List.mem_singleton] at this
    exact this
  · intro henv
    rw [handle_pagination, paginateLoop]
    split
    · rw [henv]
      simp
    · rfl

/-- C6, witness: a 3-page series with `maxDepth = 3` records exactly 2 fresh
pages numbered 2 and 3; a "next" control that reloads the starting URL records
none. -/
theorem C6_pagination_witness :
    (handle_pagination env3 "http://e.com/p1" 3).length ≤ 2 ∧
    (handle_pagination env3 "http://e.com/p1" 3).map PageEntry.pageNumber =
      List.range' 2 (handle_pagination env3 "http://e.com/p1" 3).length 1 ∧
    handle_pagination envSame "http://e.com/p1" 3 = [] := by
  refine ⟨(C6_pagination env3 "http://e.com/p1" 3).1,
    (C6_pagination env3 "http://e.com/p1" 3).2.1,
    (C6_pagination envSame "http://e.com/p1" 3).2.2.2.2 rfl⟩

/-! ## C7 — hard caps on every bounded field -/

/-- C7: every section `parse_sections` can produce respects all caps — text
≤ 2000 characters, ≤ 20 links, ≤ 10 images, ≤ 5 lists of ≤ 10 items, ≤ 3
tables of ≤ 10 rows — and each capped field is the take-prefix of the full
document-order enumeration over the section's scope (truncation, never an
error). -/
theorem C7_caps : ∀ (uj : String → String → String) (base : String)
    (soup : Node) (sec : Section), sec ∈ parse_sections uj base soup →
    SectionBounded sec ∧
    ∃ scope : List Node,
      sec.text = extract_text scope ∧
      sec.links = (linksUncapped uj base scope).take 20 ∧
      sec.images = (imagesUncapped uj base scope).take 10 ∧
      sec.lists = (listsUncapped scope).take 5 ∧
      sec.tables = (tablesUncapped scope).take 3 := by
  intro uj base soup sec hsec
  simp only [parse_sections] at hsec
  split at hsec <;> split at hsec <;>
    first
    | (refine ⟨fallback_section_bounded uj base soup sec hsec, ?_⟩
       simp only [fallback_section, List.mem_singleton] at hsec
       subst hsec
       exact ⟨[(findFirstTag ["body"] soup).getD soup], rfl, rfl, rfl, rfl, rfl⟩)
    | (simp only [parse_by_headings] at hsec
       obtain ⟨x, -, rfl⟩ := List.mem_map.mp (List.mem_of_mem_filter hsec)
       exact ⟨headingSection_bounded uj base x.1 x.2.1 x.2.2,
         x.2.2, rfl, rfl, rfl, rfl, rfl⟩)
    | (simp only [landmarkSections] at hsec
       obtain ⟨x, -, rfl⟩ := List.mem_map.mp (List.mem_of_mem_filter hsec)
       exact ⟨parse_section_bounded uj base x.2 (tagOf x.2 ++ "-" ++ toString x.1),
         [x.2], rfl, rfl, rfl, rfl, rfl⟩)

/-- C7, witness: the caps hold for the concrete section parsed from `c5soup`. -/
theorem C7_caps_witness : SectionBounded w7sec :=
  (C7_caps ujId "http://e.com/" c5soup w7sec (by decide)).1

/-! ## C10 — the count check is unreachable on successful static results -/

/-- C10: a successful static scrape always has a nonempty section list (the
builder's final fallback guarantees one section), so its insufficiency can only
arise from the total-text-length check or the no-text/link/image check. -/
theorem C10_static_nonempty : ∀ (uj : String → String → String) (url : String)
    (soup : Node),
    (staticResult uj url soup).sections ≠ [] ∧
    (is_sufficient (staticResult uj url soup) = false ↔
      (totalTextLength (staticResult uj url soup).sections < 200 ∨
        ∀ s ∈ (staticResult uj url soup).sections,
          s.text = "" ∧ s.links = [] ∧ s.images = [])) := by
  intro uj url soup
  have hne : (staticResult uj url soup).sections ≠ [] :=
    parse_sections_ne_nil uj url soup
  refine ⟨hne, ?_⟩
  rw [is_sufficient_false_iff]
  constructor
  · rintro (h | h | h)
    · exact absurd (List.length_eq_zero.mp (by omega)) hne
    · exact Or.inl h
    · exact Or.inr h
  · rintro (h | h)
    · exact Or.inr (Or.inl h)
    · exact Or.inr (Or.inr h)



/-- C5, witness: on the heading-pass page the heading pass's output is used; on
the landmark-only page the fallback fires and carries heading `"Main Content"`. -/
theorem C5_amended_witness :
    parse_sections ujId "http://e.com/" c1soup =
      parse_by_headings ujId "http://e.com/" c1soup ∧
    parse_sections ujId "http://e.com/" c5soup =
      fallback_section ujId "http://e.com/" c5soup ∧
    ((fallback_section ujId "http://e.com/" c5soup).getD 0 dfltSection).heading =
      "Main Content" :=
  ⟨(C5_amended ujId "http://e.com/" c1soup).2.2.1 (by decide) (by decide),
   (C5_amended ujId "http://e.com/" c5soup).2.2.2.1 (by decide) (by decide),
   (C5_amended ujId "http://e.com/" c5soup).2.2.2.2.2
     ((fallback_section ujId "http://e.com/" c5soup).getD 0 dfltSection)
     (by decide)⟩

/-- C8, witness: the truncation contract evaluated at concrete inputs. -/
theorem C8_amended_witness :
    (truncate_html s501).length = 503 ∧ truncate_html "x" = "x" ∧
    w7sec.rawHtml.length ≤ 503 :=
  ⟨(C8_amended.2.2 s501 (by decide)).1, C8_amended.2.1 "x" (by decide),
   C8_amended.1 ujId "http://e.com/" c5soup w7sec (by decide)⟩

theorem reconstruct_no_hash (r : SplitResultPy) (hg : GoodParts r) :
    (reconstructUrl r).contains '#' = false := by
  apply contains_eq_false_of
  intro x hx
  unfold reconstructUrl at hx
  rw [List.mem_append] at hx
  rcases hx with hx | hx
  · rw [List.mem_append] at hx
    rcases hx with hx | hx
    · rw [List.mem_append] at hx
      rcases hx with hx | hx
      · exact (isSchemeChar_ne_delims (schemeChar_of_mem hg.scheme_chars hx)).2.2.2
      · rcases List.mem_cons.mp hx with rfl | hx
        · decide
        · rcases List.mem_cons.mp hx with rfl | hx
          · decide
          · rcases List.mem_cons.mp hx with rfl | hx
            · decide
            · have := List.all_eq_true.mp hg.netloc_chars x hx
              intro heq
              subst heq
              revert this
              decide
    · have := List.all_eq_true.mp hg.path_chars x hx
      rw [Bool.and_eq_true] at this
      simpa using this.1
  · split at hx
    · cases hx
    · rcases List.mem_cons.mp hx with rfl | hx
      · decide
      · have := List.all_eq_true.mp hg.query_chars x hx
        simpa using this

/-! ## C3 — `normalize` never raises `InvalidURL` -/

/-- C3, counterexample: on a non-`http(s)` scheme `normalize_url` does not fail
— it returns the reconstruction unchanged.  (Scheme/host validation lives in
the separate `is_valid_url`.) -/
theorem C3_counterexample :
    normalize_url "ftp://host/x" = .ok "ftp://host/x" := rfl

/-- C3 (amended): `normalize_url` itself never checks the scheme or host: for
every URL that the underlying parser accepts — valid scheme or not, empty host
or not — it returns the reconstruction `scheme://host/path[?query]` with the
fragment dropped (its output contains no `#`).  The scheme/host validation the
claim describes lives in the separate `is_valid_url`, which returns `true`
exactly when the URL parses with scheme `http`/`https` and a nonempty host. -/
theorem C3_amended : ∀ u : String,
    (is_valid_url u = true ↔ ∃ r, urlparsePy u.toList = .ok r ∧
      (r.scheme = "http".toList ∨ r.scheme = "https".toList) ∧ r.netloc ≠ []) ∧
    (∀ r, urlparsePy u.toList = .ok r →
      normalize_url u = .ok (String.mk (reconstructUrl r)) ∧
      (reconstructUrl r).contains '#' = false) := by
  intro u
  constructor
  · unfold is_valid_url
    cases hp : urlparsePy u.toList with
    | error e =>
      constructor
      · intro h
        cases h
      · rintro ⟨r, hr, -, -⟩
        cases hr
    | ok r0 =>
      constructor
      · intro h
        rw [Bool.and_eq_true, Bool.or_eq_true] at h
        obtain ⟨hsch, hnet⟩ := h
        refine ⟨r0, rfl, ?_, ?_⟩
        · rcases hsch with h | h
          · exact Or.inl (by simpa using h)
          · exact Or.inr (by simpa using h)
        · simpa [List.isEmpty_iff] using hnet
      · rintro ⟨r, hr, hsch, hnet⟩
        injection hr with hr
        subst hr
        rw [Bool.and_eq_true, Bool.or_eq_true]
        refine ⟨?_, by simpa [List.isEmpty_iff] using hnet⟩
        rcases hsch with h | h
        · exact Or.inl (by simpa using h)
        · exact Or.inr (by simpa using h)
  · intro r hr
    constructor
    · unfold normalize_url
      rw [hr]
      rfl
    · exact reconstruct_no_hash r (urlparse_good u.toList r hr).1

/-- C3, witness: the amended contract evaluated at concrete URLs. -/
theorem C3_amended_witness :
    (normalize_url "http://ex.com/a#f" = .ok (String.mk (reconstructUrl c3r)) ∧
      (reconstructUrl c3r).contains '#' = false) ∧
    is_valid_url "http://ex.com/a" = true :=
  ⟨(C3_amended "http://ex.com/a#f").2 c3r rfl,
   (C3_amended "http://ex.com/a").1.mpr ⟨c3r2, rfl, Or.inl (by decide), by decide⟩⟩

/-! ## C9 — fragment stripping and idempotence -/

/-- C9, counterexample: `normalize_url` is **not** idempotent on every URL with
a fragment — on the scheme-less `"a#f"` it returns `"://a"`, and normalizing
that again yields `"://://a"`. -/
theorem C9_counterexample :
    normalize_url "a#f" = .ok "://a" ∧
    normalize_url "://a" = .ok "://://a" ∧ ("://://a" : String) ≠ "://a" :=
  ⟨rfl, rfl, by decide⟩

/-- C9 (amended): for every input URL without control or space characters that
parses with a nonempty scheme and a nonempty host — in particular every
well-formed `http`/`https` URL with a fragment — `normalize_url` strips the
fragment (its output contains no `#`) and is idempotent:
`normalize(normalize(u)) = normalize(u)`.  Idempotence fails for scheme-less
inputs such as `"a#f"`. -/
theorem C9_amended : ∀ (u v : String) (r : SplitResultPy),
    (∀ c ∈ u.toList, 0x20 < c.toNat) →
    urlparsePy u.toList = .ok r → r.scheme ≠ [] → r.netloc ≠ [] →
    normalize_url u = .ok v →
    normalize_url v = .ok v ∧ v.toList.contains '#' = false := by
  intro u v r hchars hparse hs hn hnorm
  obtain ⟨hg, hmn, hmp, hmq⟩ := urlparse_good u.toList r hparse
  have hgtn : ∀ c ∈ r.netloc, 0x20 < c.toNat := fun c hc => hchars c (hmn c hc)
  have hgtp : ∀ c ∈ r.path, 0x20 < c.toNat := fun c hc => hchars c (hmp c hc)
  have hgtq : ∀ c ∈ r.query, 0x20 < c.toNat := fun c hc => hchars c (hmq c hc)
  have hv : v = String.mk (reconstructUrl r) := by
    unfold normalize_url at hnorm
    rw [hparse] at hnorm
    simp only [Except.map] at hnorm
    injection hnorm with h1
    exact h1.symm
  subst hv
  constructor
  · unfold normalize_url
    have htl : (String.mk (reconstructUrl r)).toList = reconstructUrl r := rfl
    rw [htl, urlparse_reconstruct r hg hs hn hgtn hgtp hgtq]
    simp only [Except.map]
    have : reconstructUrl ⟨r.scheme, r.netloc, r.path, r.query, []⟩ =
        reconstructUrl r := by
      cases r
      rfl
    rw [this]
  · exact reconstruct_no_hash r hg

/-- C9, witness: idempotence and fragment stripping at a concrete URL. -/
theorem C9_amended_witness :
    normalize_url c9v = .ok c9v ∧ c9v.toList.contains '#' = false :=
  C9_amended "HTTPS://Ex.com/p/x?q=1#frag" c9v c9r (by decide) rfl
    (by decide) (by decide) rfl

end Scraper
